import Mathlib

/-!
# CoveredCallHistory — verification of the gains/losses engine

Shallow embedding of the core of the CoveredCallHistory repository:
the tax-lot matcher (`calculateStockGains`), the wash-sale pass, the
options strategy engine (`calculateOptionGains`), the combining
aggregator (`calculateGainsLosses`) and the XIRR entry point
(`calculateXIRR` from `src/utils/annualizedReturn.js`).

Modelling conventions:
* JavaScript numbers are modelled as exact rationals (`ℚ`); dates are
  millisecond timestamps modelled as `Int` (a JS `Date` compared or
  subtracted numerically is its epoch-milliseconds value).
* JS objects used as per-symbol maps (`positions[symbol]`) are modelled
  as association lists `List (String × α)` preserving key insertion
  order, as JS object iteration does.
* The in-place `while` loops consuming lots/positions are modelled as
  fuel-indexed structural recursions (`sellLoop`) or structural
  recursions on the queue (`closeLoop`); the fuel is the lot-list
  length, which strictly bounds the number of full-lot consumptions.
* `Array.prototype.sort` with comparator `(a, b) => a.date - b.date`
  is a stable ascending sort; it is modelled by a stable insertion
  sort `sortByDate`.
* `[...transactions].sort(...)` copies before sorting; the caller's
  array is untouched.  `calculateGainsLossesTracked` returns, next to
  the result, the state of the caller's transaction array after the
  call, making that frame property provable.
-/

attribute [local semireducible] Rat.add Rat.mul Rat.sub Rat.inv

/-- Transaction types produced by the external CSV normalizer. -/
inductive TxnType where
  | BUY | SELL | DIVIDEND
  | OPTION_BUY_OPEN | OPTION_SELL_OPEN | OPTION_BUY_CLOSE | OPTION_SELL_CLOSE
  | OPTION_EXPIRED | OPTION_ASSIGNED
  | OTHER
deriving DecidableEq, Inhabited

/-- A normalized ledger transaction (read-only input of the engine).
`action`, `description` and `rawCashBalance` model the raw source
fields consumed only by the ownership-evidence scan and the XIRR
cash-flow builder (`rawCashBalance` is the parsed `Cash Balance`
column; `none` models `NaN`/absent). -/
structure Txn where
  date : Int
  symbol : String
  transactionType : TxnType
  quantity : ℚ
  price : ℚ
  commission : ℚ
  fees : ℚ
  amount : ℚ
  isOption : Bool
  action : String
  description : String
  rawCashBalance : Option ℚ
deriving DecidableEq

/-- A tax lot: remaining shares of one acquisition, with its
per-share cost basis and acquisition date. -/
structure Lot where
  quantity : ℚ
  costPerShare : ℚ
  date : Int
deriving DecidableEq, Inhabited

/-- Holding-period classification of a lot or of a whole trade. -/
inductive Term where
  | SHORT | LONG | MIXED
deriving DecidableEq, Inhabited

/-- Lot-selection strategy of the tax-lot matcher. -/
inductive TaxStrategy where
  | FIFO | LIFO | HIFO
deriving DecidableEq

/-- One lot closure recorded on a SELL trade.  For the orphaned
portion (missing buy history) the source object carries no `daysHeld`
key; it is modelled as `0` there (its `term` is fixed to `LONG`). -/
structure SoldLot where
  quantity : ℚ
  date : Int
  cost : ℚ
  proceeds : ℚ
  realizedPL : ℚ
  daysHeld : Int
  term : Term
deriving DecidableEq, Inhabited

/-- A realized stock trade record.  Keys the source omits on BUY
records (`totalProceeds`, `term`, `lots`) are modelled as `0`, `none`,
`[]`; `isWashSale` is absent (falsy) until the wash pass sets it, so
it is modelled as a `Bool` defaulting to `false`, and `washSaleDate`
models the replacement-purchase date cited by `washSaleMsg`. -/
structure StockTrade where
  date : Int
  symbol : String
  type : TxnType
  quantity : ℚ
  price : ℚ
  totalProceeds : ℚ
  totalCost : ℚ
  realizedPL : ℚ
  term : Option Term
  lots : List SoldLot
  isWashSale : Bool
  washSaleDate : Option Int
deriving DecidableEq, Inhabited

/-- JS-object lookup: first binding of the key in insertion order. -/
def lookupSym {α : Type} (m : List (String × α)) (s : String) : Option α :=
  (m.find? (fun p => p.1 == s)).map (·.2)

/-- JS-object write `m[s] = v`: overwrite in place if the key exists,
otherwise append the new key at the end (JS key insertion order). -/
def setSym {α : Type} (m : List (String × α)) (s : String) (v : α) :
    List (String × α) :=
  match m with
  | [] => [(s, v)]
  | (k, w) :: rest => if k == s then (k, v) :: rest else (k, w) :: setSym rest s v

/-- Stable insertion of a transaction in front of the first
strictly-later-dated element: the helper of `sortByDate`. -/
def insertByDate (t : Txn) : List Txn → List Txn
  | [] => [t]
  | u :: rest => if u.date < t.date then u :: insertByDate t rest else t :: u :: rest

/-- `[...transactions].sort((a, b) => a.date - b.date)`: stable
ascending sort by date (source ties keep their input order). -/
def sortByDate (txns : List Txn) : List Txn :=
  txns.foldr insertByDate []

/-- Milliseconds per day, as in `1000 * 60 * 60 * 24`. -/
def msPerDay : Int := 86400000

/-- `Math.ceil(Math.abs(sellDate - buyDate) / msPerDay)`. -/
def daysHeldOf (sellDate buyDate : Int) : Int :=
  Int.ceil ((|sellDate - buyDate| : ℚ) / (msPerDay : ℚ))

/-- `diffDays > 365 ? 'LONG' : 'SHORT'`. -/
def termOfDays (d : Int) : Term :=
  if d > 365 then .LONG else .SHORT

/-- The `forEach` scan of the HIFO branch: running `(lotIndex, maxCost)`
pair, updated whenever a lot's `costPerShare` strictly exceeds the
running maximum (initially `-1`). -/
def hifoAux : List Lot → Nat → Nat → ℚ → Nat × ℚ
  | [], _, best, maxCost => (best, maxCost)
  | l :: rest, idx, best, maxCost =>
    if l.costPerShare > maxCost then hifoAux rest (idx + 1) idx l.costPerShare
    else hifoAux rest (idx + 1) best maxCost

/-- Lot selection of `calculateStockGains`: FIFO picks index 0, LIFO
the last index, HIFO the `forEach` scan starting from `(0, -1)`. -/
def selectLotIndex (strategy : TaxStrategy) (lots : List Lot) : Nat :=
  match strategy with
  | .LIFO => lots.length - 1
  | .HIFO => (hifoAux lots 0 0 (-1)).1
  | .FIFO => 0

/-- Result of the lot-consuming `while` loop of a SELL. -/
structure SellLoopOut where
  lots : List Lot
  soldLots : List SoldLot
  totalCost : ℚ
  remaining : ℚ
deriving DecidableEq

/-- The `while (remainingToSell > 0 && positionList.length > 0)` loop.
Each full-lot iteration removes one lot, so the initial lot-list
length is sufficient fuel; the zero-fuel clause is unreachable when
called with `fuel = lots.length`. -/
def sellLoop (strategy : TaxStrategy) (sellDate : Int) (sellQty totalProceeds : ℚ) :
    Nat → ℚ → List Lot → SellLoopOut
  | 0, remaining, lots => ⟨lots, [], 0, remaining⟩
  | fuel + 1, remaining, lots =>
    if 0 < remaining ∧ lots ≠ [] then
      let i := selectLotIndex strategy lots
      let lot := lots.getD i default
      let diffDays := daysHeldOf sellDate lot.date
      let term := termOfDays diffDays
      if lot.quantity ≤ remaining then
        -- sell the entire lot, remove it from the sequence
        let lotCost := lot.quantity * lot.costPerShare
        let lotProceeds := lot.quantity / sellQty * totalProceeds
        let sold : SoldLot :=
          ⟨lot.quantity, lot.date, lotCost, lotProceeds, lotProceeds - lotCost, diffDays, term⟩
        let rest := sellLoop strategy sellDate sellQty totalProceeds fuel
          (remaining - lot.quantity) (lots.eraseIdx i)
        ⟨rest.lots, sold :: rest.soldLots, lotCost + rest.totalCost, rest.remaining⟩
      else
        -- partial sell: decrement the lot in place, loop ends
        let lotCost := remaining * lot.costPerShare
        let lotProceeds := remaining / sellQty * totalProceeds
        let sold : SoldLot :=
          ⟨remaining, lot.date, lotCost, lotProceeds, lotProceeds - lotCost, diffDays, term⟩
        ⟨lots.set i { lot with quantity := lot.quantity - remaining }, [sold], lotCost, 0⟩
    else ⟨lots, [], 0, remaining⟩

/-- The JS `Set` built by insertion: first occurrences, in order. -/
def jsSetList {α : Type} [DecidableEq α] (ts : List α) : List α :=
  ts.foldl (fun acc t => if t ∈ acc then acc else acc ++ [t]) []

/-- `terms.size > 1 ? 'MIXED' : (terms.values().next().value || 'SHORT')`. -/
def tradeTermOf (soldLots : List SoldLot) : Term :=
  let s := jsSetList (soldLots.map (·.term))
  if s.length > 1 then .MIXED else s.headD .SHORT

/-- Mutable state of `calculateStockGains`: the per-symbol lot map, the
emitted trades and the running realized/term totals. -/
structure StockState where
  positions : List (String × List Lot)
  trades : List StockTrade
  totalRealizedGains : ℚ
  totalRealizedLosses : ℚ
  shortTermGains : ℚ
  shortTermLosses : ℚ
  longTermGains : ℚ
  longTermLosses : ℚ
deriving DecidableEq

def initStockState : StockState := ⟨[], [], 0, 0, 0, 0, 0, 0⟩

/-- The `soldLots.forEach` accumulation of short/long term totals. -/
def accumTermTotals (st : StockState) (soldLots : List SoldLot) : StockState :=
  soldLots.foldl (fun s l =>
    if l.term = .LONG then
      if l.realizedPL > 0 then { s with longTermGains := s.longTermGains + l.realizedPL }
      else { s with longTermLosses := s.longTermLosses + l.realizedPL }
    else
      if l.realizedPL > 0 then { s with shortTermGains := s.shortTermGains + l.realizedPL }
      else { s with shortTermLosses := s.shortTermLosses + l.realizedPL }) st

/-- One iteration of the main loop of `calculateStockGains` (the
current revision of the source: a SELL with no open lots takes the
orphaned-lot fallback, never a skip). -/
def processStockTxn (strategy : TaxStrategy) (st : StockState) (txn : Txn) : StockState :=
  match txn.transactionType with
  | .BUY =>
    let costPerShare := txn.price + (txn.commission + txn.fees) / txn.quantity
    let newLots := (lookupSym st.positions txn.symbol).getD [] ++
      [⟨txn.quantity, costPerShare, txn.date⟩]
    let trade : StockTrade :=
      { date := txn.date, symbol := txn.symbol, type := .BUY,
        quantity := txn.quantity, price := txn.price,
        totalProceeds := 0,
        totalCost := txn.quantity * txn.price + txn.commission + txn.fees,
        realizedPL := 0, term := none, lots := [],
        isWashSale := false, washSaleDate := none }
    { st with positions := setSym st.positions txn.symbol newLots,
              trades := st.trades ++ [trade] }
  | .SELL =>
    let positionList := (lookupSym st.positions txn.symbol).getD []
    let totalProceeds := txn.quantity * txn.price - txn.commission - txn.fees
    if positionList = [] then
      -- orphaned lot: zero cost basis, assumed long term
      let realizedPL := totalProceeds - 0
      let orphan : SoldLot := ⟨txn.quantity, 0, 0, totalProceeds, realizedPL, 0, .LONG⟩
      let trade : StockTrade :=
        { date := txn.date, symbol := txn.symbol, type := .SELL,
          quantity := txn.quantity, price := txn.price,
          totalProceeds := totalProceeds, totalCost := 0,
          realizedPL := realizedPL, term := some .LONG, lots := [orphan],
          isWashSale := false, washSaleDate := none }
      let st :=
        if realizedPL > 0 then { st with longTermGains := st.longTermGains + realizedPL }
        else { st with longTermLosses := st.longTermLosses + realizedPL }
      { st with totalRealizedGains := st.totalRealizedGains + realizedPL,
                trades := st.trades ++ [trade] }
    else
      let out := sellLoop strategy txn.date txn.quantity totalProceeds
        positionList.length txn.quantity positionList
      -- partial orphan: shortfall beyond all tracked lots, zero basis
      let hasOrphan := 0 < out.remaining
      let orphanProceeds := out.remaining / txn.quantity * totalProceeds
      let orphanPL := orphanProceeds - 0
      let soldLots := if hasOrphan then
          out.soldLots ++ [⟨out.remaining, 0, 0, orphanProceeds, orphanPL, 0, .LONG⟩]
        else out.soldLots
      let totalCost := if hasOrphan then out.totalCost + 0 else out.totalCost
      let st := if hasOrphan then
          (if orphanPL > 0 then { st with longTermGains := st.longTermGains + orphanPL }
           else { st with longTermLosses := st.longTermLosses + orphanPL })
        else st
      let realizedPL := totalProceeds - totalCost
      let st :=
        if realizedPL > 0 then
          { st with totalRealizedGains := st.totalRealizedGains + realizedPL }
        else
          { st with totalRealizedLosses := st.totalRealizedLosses + realizedPL }
      let st := accumTermTotals st soldLots
      let trade : StockTrade :=
        { date := txn.date, symbol := txn.symbol, type := .SELL,
          quantity := txn.quantity, price := txn.price,
          totalProceeds := totalProceeds, totalCost := totalCost,
          realizedPL := realizedPL, term := some (tradeTermOf soldLots),
          lots := soldLots, isWashSale := false, washSaleDate := none }
      { st with positions := setSym st.positions txn.symbol out.lots,
                trades := st.trades ++ [trade] }
  | _ => st

/-- `30 * 24 * 60 * 60 * 1000` milliseconds. -/
def thirtyDaysMs : Int := 2592000000

/-- The wash-sale search predicate: a BUY of the same symbol, whose
date is not among the sold lots' acquisition dates, within ±30 days
of the sell. -/
def isReplacementBuy (tr : StockTrade) (t : Txn) : Bool :=
  decide (t.symbol = tr.symbol ∧ t.transactionType = .BUY ∧
    t.date ∉ tr.lots.map (·.date) ∧ |t.date - tr.date| ≤ thirtyDaysMs)

/-- `transactions.find(...)` over the original (unsorted) input. -/
def findReplacementBuy (txns : List Txn) (tr : StockTrade) : Option Txn :=
  txns.find? (isReplacementBuy tr)

/-- One trade's treatment by the wash-sale pass. -/
def applyWashFlag (txns : List Txn) (tr : StockTrade) : StockTrade :=
  if tr.realizedPL < 0 ∧ tr.type = .SELL then
    match findReplacementBuy txns tr with
    | some t => { tr with isWashSale := true, washSaleDate := some t.date }
    | none => tr
  else tr

/-- `calculateStockGains(transactions, strategy)`: sort a copy of the
input by date, fold the matcher over it, then run the wash-sale pass
over the completed trades (searching the original input list, as the
source closure does). -/
def calculateStockGains (txns : List Txn) (strategy : TaxStrategy) : StockState :=
  let st := (sortByDate txns).foldl (processStockTxn strategy) initStockState
  { st with trades := st.trades.map (applyWashFlag txns) }

/-- CALL/PUT parsed from the option symbol. -/
inductive OptionType where
  | CALL | PUT
deriving DecidableEq, Inhabited

/-- Option strategy buckets of the strategy engine. -/
inductive OptStrategy where
  | coveredCalls | nakedCalls | cashSecuredPuts | longCalls | longPuts
deriving DecidableEq, Inhabited

/-- Side of an open option position (`type: 'SHORT' | 'LONG'`). -/
inductive OptSide where
  | SHORT | LONG
deriving DecidableEq, Inhabited

/-- Option trade record types. -/
inductive OptTradeType where
  | SELL_OPEN | BUY_OPEN | BUY_CLOSE | SELL_CLOSE | EXPIRED | ASSIGNED
deriving DecidableEq, Inhabited

/-- `symbol.replace('-', '')`: JS `replace` with a string pattern
removes only the first occurrence. -/
def removeFirstDash : List Char → List Char
  | [] => []
  | c :: rest => if c == '-' then rest else c :: removeFirstDash rest

/-- The `[A-Z]+` run at the start of the cleaned symbol. -/
def leadingUpper : List Char → List Char
  | [] => []
  | c :: rest => if 'A' ≤ c ∧ c ≤ 'Z' then c :: leadingUpper rest else []

/-- `getUnderlyingSymbol`: leading alphabetic run of the dash-stripped
symbol; the whole cleaned symbol when `^[A-Z]+` does not match. -/
def getUnderlyingSymbol (optionSymbol : String) : String :=
  let clean := removeFirstDash optionSymbol.data
  match leadingUpper clean with
  | [] => String.mk clean
  | l => String.mk l

/-- Whether six digits followed by `C`/`P` start here. -/
def digit6CPAt (l : List Char) : Option Char :=
  match l with
  | c1 :: c2 :: c3 :: c4 :: c5 :: c6 :: c7 :: _ =>
    if c1.isDigit && c2.isDigit && c3.isDigit && c4.isDigit && c5.isDigit &&
        c6.isDigit && (c7 == 'C' || c7 == 'P') then some c7 else none
  | _ => none

/-- Leftmost match of the regex `\d{6}([CP])`, as its captured letter. -/
def scanDigit6CP : List Char → Option Char
  | [] => none
  | c :: rest =>
    match digit6CPAt (c :: rest) with
    | some r => some r
    | none => scanDigit6CP rest

/-- `getOptionType`: classify by the letter captured by `\d{6}([CP])`
when that pattern occurs; otherwise fall back to the heuristic
`includes('C') ? 'CALL' : 'PUT'`.  (The source's three-branch chain
reduces to exactly this.) -/
def getOptionType (optionSymbol : String) : OptionType :=
  match scanDigit6CP optionSymbol.data with
  | some c => if c == 'C' then .CALL else .PUT
  | none => if optionSymbol.data.contains 'C' then .CALL else .PUT

/-- An open option position in a symbol's FIFO queue. -/
structure OptPosition where
  quantity : ℚ
  premiumPerContract : ℚ
  date : Int
  type : OptSide
  strategy : OptStrategy
  optionType : OptionType
deriving DecidableEq, Inhabited

/-- A realized option trade record.  `premium` is `0` on EXPIRED and
ASSIGNED records, where the source omits the key. -/
structure OptionTrade where
  date : Int
  symbol : String
  underlyingSymbol : String
  type : OptTradeType
  optionType : OptionType
  strategy : OptStrategy
  quantity : ℚ
  premium : ℚ
  totalProceeds : ℚ
  totalCost : ℚ
  realizedPL : ℚ
deriving DecidableEq, Inhabited

/-- Per-strategy aggregate.  The source keeps the short-strategy keys
(`premiumCollected/Retained/Lost`) and long-strategy keys
(`premiumPaid`, `gains`, `losses`) on different objects; here one
record carries all of them (the ones the source lacks are never
updated on that strategy along the paths the claims concern). -/
structure StrategyAgg where
  premiumCollected : ℚ
  premiumRetained : ℚ
  premiumLost : ℚ
  premiumPaid : ℚ
  gains : ℚ
  losses : ℚ
  tradesCount : Nat
  trades : List OptionTrade
deriving DecidableEq

def initStrategyAgg : StrategyAgg := ⟨0, 0, 0, 0, 0, 0, 0, []⟩

/-- The five strategy buckets of `strategyResults`. -/
structure StrategyResults where
  coveredCalls : StrategyAgg
  nakedCalls : StrategyAgg
  cashSecuredPuts : StrategyAgg
  longCalls : StrategyAgg
  longPuts : StrategyAgg
deriving DecidableEq

def initStrategyResults : StrategyResults :=
  ⟨initStrategyAgg, initStrategyAgg, initStrategyAgg, initStrategyAgg, initStrategyAgg⟩

/-- `strategyResults[strategy]` updated through `f`. -/
def StrategyResults.update (sr : StrategyResults) (s : OptStrategy)
    (f : StrategyAgg → StrategyAgg) : StrategyResults :=
  match s with
  | .coveredCalls => { sr with coveredCalls := f sr.coveredCalls }
  | .nakedCalls => { sr with nakedCalls := f sr.nakedCalls }
  | .cashSecuredPuts => { sr with cashSecuredPuts := f sr.cashSecuredPuts }
  | .longCalls => { sr with longCalls := f sr.longCalls }
  | .longPuts => { sr with longPuts := f sr.longPuts }

/-- Mutable state of `calculateOptionGains`. -/
structure OptState where
  positions : List (String × List OptPosition)
  trades : List OptionTrade
  totalRealizedGains : ℚ
  totalRealizedLosses : ℚ
  shortTermGains : ℚ
  shortTermLosses : ℚ
  longTermGains : ℚ
  longTermLosses : ℚ
  strategyResults : StrategyResults
deriving DecidableEq

def initOptState : OptState := ⟨[], [], 0, 0, 0, 0, 0, 0, initStrategyResults⟩

/-- The close-consuming `while` loop shared verbatim by the
BUY_CLOSE and SELL_CLOSE branches: consume from the front of the
queue, accumulating `quantity × premiumPerContract` of the consumed
portions; the running `strategy` is overwritten by each consumed
position's strategy.  Returns the remaining queue, the accumulated
premium and the final strategy. -/
def closeLoop : ℚ → OptStrategy → ℚ → List OptPosition →
    List OptPosition × ℚ × OptStrategy
  | remaining, strat, acc, queue =>
    if 0 < remaining then
      match queue with
      | [] => ([], acc, strat)
      | pos :: rest =>
        if pos.quantity ≤ remaining then
          closeLoop (remaining - pos.quantity) pos.strategy
            (acc + pos.quantity * pos.premiumPerContract) rest
        else
          ({ pos with quantity := pos.quantity - remaining } :: rest,
            acc + remaining * pos.premiumPerContract, pos.strategy)
    else (queue, acc, strat)

/-- One iteration of the main loop of `calculateOptionGains` (the
current revision of the source: SELL_OPEN on a CALL is always
classified `coveredCalls`; `stockPositions` and `ownedSymbols` are
received but not consulted by that classification). -/
def processOptionTxn (_stockPositions : List (String × List Lot))
    (_ownedSymbols : List String) (st : OptState) (txn : Txn) : OptState :=
  let symbol := txn.symbol
  let underlyingSymbol := getUnderlyingSymbol symbol
  let optionType := getOptionType symbol
  match txn.transactionType with
  | .OPTION_SELL_OPEN =>
    let premiumCollected := |txn.amount|
    let strategy : OptStrategy :=
      if optionType = .CALL then .coveredCalls else .cashSecuredPuts
    let queue := (lookupSym st.positions symbol).getD []
    let pos : OptPosition :=
      ⟨txn.quantity, premiumCollected / txn.quantity, txn.date, .SHORT, strategy, optionType⟩
    let trade : OptionTrade :=
      ⟨txn.date, symbol, underlyingSymbol, .SELL_OPEN, optionType, strategy,
        txn.quantity, premiumCollected, 0, 0, 0⟩
    { st with
      positions := setSym st.positions symbol (queue ++ [pos]),
      trades := st.trades ++ [trade],
      strategyResults := st.strategyResults.update strategy (fun a =>
        { a with premiumCollected := a.premiumCollected + premiumCollected,
                 tradesCount := a.tradesCount + 1,
                 trades := a.trades ++ [trade] }) }
  | .OPTION_BUY_OPEN =>
    let premiumPaid := |txn.amount|
    let strategy : OptStrategy :=
      if optionType = .CALL then .longCalls else .longPuts
    let queue := (lookupSym st.positions symbol).getD []
    let pos : OptPosition :=
      ⟨txn.quantity, premiumPaid / txn.quantity, txn.date, .LONG, strategy, optionType⟩
    let trade : OptionTrade :=
      ⟨txn.date, symbol, underlyingSymbol, .BUY_OPEN, optionType, strategy,
        txn.quantity, premiumPaid, 0, 0, 0⟩
    { st with
      positions := setSym st.positions symbol (queue ++ [pos]),
      trades := st.trades ++ [trade],
      strategyResults := st.strategyResults.update strategy (fun a =>
        { a with premiumPaid := a.premiumPaid + premiumPaid,
                 tradesCount := a.tradesCount + 1,
                 trades := a.trades ++ [trade] }) }
  | .OPTION_BUY_CLOSE =>
    let premiumPaid := |txn.amount|
    match lookupSym st.positions symbol with
    | none => st
    | some queue =>
      if queue = [] then st
      else
        let strat0 := ((queue.head?).map (·.strategy)).getD .nakedCalls
        let out := closeLoop txn.quantity strat0 0 queue
        let remainingQueue := out.1
        let totalPremiumCollected := out.2.1
        let strategy := out.2.2
        let realizedPL := totalPremiumCollected - premiumPaid
        let trade : OptionTrade :=
          ⟨txn.date, symbol, getUnderlyingSymbol symbol, .BUY_CLOSE,
            getOptionType symbol, strategy, txn.quantity, premiumPaid,
            totalPremiumCollected, premiumPaid, realizedPL⟩
        let st :=
          if realizedPL > 0 then
            { st with
              totalRealizedGains := st.totalRealizedGains + realizedPL,
              shortTermGains := st.shortTermGains + realizedPL,
              strategyResults := st.strategyResults.update strategy (fun a =>
                { a with premiumRetained := a.premiumRetained + realizedPL }) }
          else
            { st with
              totalRealizedLosses := st.totalRealizedLosses + realizedPL,
              shortTermLosses := st.shortTermLosses + realizedPL,
              strategyResults := st.strategyResults.update strategy (fun a =>
                { a with premiumLost := a.premiumLost + |realizedPL| }) }
        { st with
          positions := setSym st.positions symbol remainingQueue,
          trades := st.trades ++ [trade],
          strategyResults := st.strategyResults.update strategy (fun a =>
            { a with trades := a.trades ++ [trade] }) }
  | .OPTION_SELL_CLOSE =>
    let premiumReceived := |txn.amount|
    match lookupSym st.positions symbol with
    | none => st
    | some queue =>
      if queue = [] then st
      else
        let strat0 := ((queue.head?).map (·.strategy)).getD .longCalls
        let out := closeLoop txn.quantity strat0 0 queue
        let remainingQueue := out.1
        let totalPremiumPaid := out.2.1
        let strategy := out.2.2
        let realizedPL := premiumReceived - totalPremiumPaid
        let trade : OptionTrade :=
          ⟨txn.date, symbol, getUnderlyingSymbol symbol, .SELL_CLOSE,
            getOptionType symbol, strategy, txn.quantity, premiumReceived,
            premiumReceived, totalPremiumPaid, realizedPL⟩
        let st :=
          if realizedPL > 0 then
            { st with
              totalRealizedGains := st.totalRealizedGains + realizedPL,
              shortTermGains := st.shortTermGains + realizedPL,
              strategyResults := st.strategyResults.update strategy (fun a =>
                { a with gains := a.gains + realizedPL }) }
          else
            { st with
              totalRealizedLosses := st.totalRealizedLosses + realizedPL,
              shortTermLosses := st.shortTermLosses + realizedPL,
              strategyResults := st.strategyResults.update strategy (fun a =>
                { a with losses := a.losses + |realizedPL| }) }
        { st with
          positions := setSym st.positions symbol remainingQueue,
          trades := st.trades ++ [trade],
          strategyResults := st.strategyResults.update strategy (fun a =>
            { a with trades := a.trades ++ [trade] }) }
  | .OPTION_EXPIRED =>
    match lookupSym st.positions symbol with
    | none => st
    | some queue =>
      match queue with
      | [] => st
      | pos :: rest =>
        let strategy := pos.strategy
        if pos.type = .SHORT then
          let gain := pos.quantity * pos.premiumPerContract
          let trade : OptionTrade :=
            ⟨txn.date, symbol, getUnderlyingSymbol symbol, .EXPIRED,
              pos.optionType, strategy, pos.quantity, 0, gain, 0, gain⟩
          { st with
            positions := setSym st.positions symbol rest,
            trades := st.trades ++ [trade],
            totalRealizedGains := st.totalRealizedGains + gain,
            shortTermGains := st.shortTermGains + gain,
            strategyResults := (st.strategyResults.update strategy (fun a =>
              { a with premiumRetained := a.premiumRetained + gain })).update strategy
                (fun a => { a with trades := a.trades ++ [trade] }) }
        else
          let loss := -(pos.quantity * pos.premiumPerContract)
          let trade : OptionTrade :=
            ⟨txn.date, symbol, getUnderlyingSymbol symbol, .EXPIRED,
              pos.optionType, strategy, pos.quantity, 0, 0, |loss|, loss⟩
          { st with
            positions := setSym st.positions symbol rest,
            trades := st.trades ++ [trade],
            totalRealizedLosses := st.totalRealizedLosses + loss,
            shortTermLosses := st.shortTermLosses + loss,
            strategyResults := (st.strategyResults.update strategy (fun a =>
              { a with losses := a.losses + |loss| })).update strategy
                (fun a => { a with trades := a.trades ++ [trade] }) }
  | .OPTION_ASSIGNED =>
    match lookupSym st.positions symbol with
    | none => st
    | some queue =>
      match queue with
      | [] => st
      | pos :: rest =>
        let strategy := pos.strategy
        let gain := pos.quantity * pos.premiumPerContract
        let trade : OptionTrade :=
          ⟨txn.date, symbol, getUnderlyingSymbol symbol, .ASSIGNED,
            pos.optionType, strategy, pos.quantity, 0, gain, 0, gain⟩
        { st with
          positions := setSym st.positions symbol rest,
          trades := st.trades ++ [trade],
          totalRealizedGains := st.totalRealizedGains + gain,
          shortTermGains := st.shortTermGains + gain,
          strategyResults := (st.strategyResults.update strategy (fun a =>
            { a with premiumRetained := a.premiumRetained + gain })).update strategy
              (fun a => { a with trades := a.trades ++ [trade] }) }
  | _ => st

/-- `calculateOptionGains(transactions, stockPositions, ownedSymbols)`:
sort a copy of the option transactions by date and fold the engine
over it. -/
def calculateOptionGains (txns : List Txn)
    (stockPositions : List (String × List Lot)) (ownedSymbols : List String) :
    OptState :=
  (sortByDate txns).foldl (processOptionTxn stockPositions ownedSymbols) initOptState

/-- Substring test, the semantics of JS `String.prototype.includes`
(`startsWithChars sub l` = `sub` is an initial run of `l`). -/
def startsWithChars : List Char → List Char → Bool
  | [], _ => true
  | _ :: _, [] => false
  | a :: as, b :: bs => a == b && startsWithChars as bs

/-- Contiguous-sublist test on character lists. -/
def containsChars : List Char → List Char → Bool
  | l, sub =>
    match l with
    | [] => sub.isEmpty
    | _ :: rest => startsWithChars sub l || containsChars rest sub

/-- `s.includes(sub)`. -/
def jsIncludes (s sub : String) : Bool :=
  containsChars s.data sub.data

/-- `Set.prototype.add`: append when not yet present. -/
def addIfNew (acc : List String) (s : String) : List String :=
  if acc.contains s then acc else acc ++ [s]

/-- `symbol.replace('-', '')` on a whole string. -/
def cleanSymbolOf (s : String) : String :=
  String.mk (removeFirstDash s.data)

/-- The ownership-evidence scan of `calculateGainsLosses`: dividends,
assigned calls, sales of assigned shares and plain SELLs mark their
symbol (or underlying) as owned. -/
def buildOwnedSymbols (txns : List Txn) : List String :=
  txns.foldl (fun acc txn =>
    let symbol := cleanSymbolOf txn.symbol
    let acc := if txn.transactionType = .DIVIDEND then addIfNew acc symbol else acc
    let acc := if jsIncludes txn.action "ASSIGNED" && jsIncludes txn.action "CALL" then
        addIfNew acc (getUnderlyingSymbol symbol) else acc
    let acc := if jsIncludes txn.action "SOLD" && jsIncludes txn.action "ASSIGNED" then
        addIfNew acc symbol else acc
    if txn.transactionType = .SELL then addIfNew acc symbol else acc) []

/-- The combined report of `calculateGainsLosses`.  `allTrades`
concatenates the stock and the option trade arrays; the two record
shapes are modelled as a sum. -/
structure GainsLosses where
  totalRealizedGains : ℚ
  totalRealizedLosses : ℚ
  netPL : ℚ
  stockResults : StockState
  optionResults : OptState
  allTrades : List (StockTrade ⊕ OptionTrade)
deriving DecidableEq

/-- `calculateGainsLosses(transactions, taxStrategy)`. -/
def calculateGainsLosses (txns : List Txn) (taxStrategy : TaxStrategy) : GainsLosses :=
  let stockTransactions := txns.filter (fun t => !t.isOption)
  let optionTransactions := txns.filter (fun t => t.isOption)
  let ownedSymbols := buildOwnedSymbols txns
  let stockResults := calculateStockGains stockTransactions taxStrategy
  let optionResults := calculateOptionGains optionTransactions
    stockResults.positions ownedSymbols
  let totalRealizedGains := stockResults.totalRealizedGains + optionResults.totalRealizedGains
  let totalRealizedLosses := stockResults.totalRealizedLosses + optionResults.totalRealizedLosses
  { totalRealizedGains := totalRealizedGains,
    totalRealizedLosses := totalRealizedLosses,
    netPL := totalRealizedGains + totalRealizedLosses,
    stockResults := stockResults,
    optionResults := optionResults,
    allTrades := stockResults.trades.map Sum.inl ++ optionResults.trades.map Sum.inr }

/-- `calculateGainsLosses` together with the state of the caller's
transaction array after the call.  Every traversal of the input acts
on a fresh array — `transactions.filter(...)` allocates, and the date
sort acts on the spread copy `[...transactions]` — so the array object
the caller passed is returned as it came in.  (An in-place
`transactions.sort(...)` would instead leave the sorted permutation
here.) -/
def calculateGainsLossesTracked (txns : List Txn) (taxStrategy : TaxStrategy) :
    GainsLosses × List Txn :=
  (calculateGainsLosses txns taxStrategy, txns)

/-- A dated signed cash flow of the XIRR solver. -/
structure CashFlow where
  date : Int
  amount : ℚ
deriving DecidableEq

/-- The latest positive parsed cash balance, scanning backwards, used
when no current portfolio value is supplied. -/
def findLastBalance : List Txn → Option ℚ
  | [] => none
  | txn :: rest =>
    match findLastBalance rest with
    | some b => some b
    | none =>
      match txn.rawCashBalance with
      | some b => if b > 0 then some b else none
      | none => none

/-- The transfer-detection test of `buildCashFlows`. -/
def isTransferTxn (txn : Txn) : Bool :=
  jsIncludes txn.action.toLower "funds transfer" ||
  jsIncludes txn.action.toLower "deposit" ||
  jsIncludes txn.action.toLower "withdrawal" ||
  jsIncludes txn.action.toLower "check paid" ||
  jsIncludes txn.description.toLower "transfer"

/-- `buildCashFlows(transactions, currentValue)` from
`src/utils/annualizedReturn.js` (the balance-inferred policy): an
inferred starting balance as the opening negative flow, external
transfers as signed flows, and the final value (the supplied current
value, or the latest positive cash balance) as the closing positive
flow dated `today` (`new Date()`). -/
def buildCashFlows (txns : List Txn) (currentValue : ℚ) (today : Int) :
    List CashFlow :=
  let sorted := sortByDate txns
  match sorted.head? with
  | none => []
  | some firstTxn =>
    let startBalance :=
      match firstTxn.rawCashBalance with
      | some rawBalance => rawBalance - firstTxn.amount
      | none => 0
    let startBalance := if startBalance ≤ 0 then 1 else startBalance
    let opening : CashFlow := ⟨firstTxn.date, -|startBalance|⟩
    let transfers := (sorted.filter isTransferTxn).map (fun txn =>
      if txn.amount > 0 then (⟨txn.date, -txn.amount⟩ : CashFlow)
      else ⟨txn.date, |txn.amount|⟩)
    let finalValue := if currentValue = 0 then (findLastBalance sorted).getD 0
      else currentValue
    let closing := if finalValue > 0 then [(⟨today, finalValue⟩ : CashFlow)] else []
    opening :: transfers ++ closing

/-- `calculateXIRR(transactions, currentValue)`: build the cash-flow
series and, with fewer than 2 flows, return `0` before the Newton
iteration ever runs.  The Newton root-finder itself evaluates
`(1+r)^years` for fractional `years` — real-valued floating-point
iteration with no exact counterpart — so it is taken as a parameter
`newton`; every run reaching it applies `newton` to the constructed
series and scales by 100. -/
def calculateXIRR (newton : List CashFlow → ℚ) (txns : List Txn)
    (currentValue : ℚ) (today : Int) : ℚ :=
  let cashFlows := buildCashFlows txns currentValue today
  if cashFlows.length < 2 then 0
  else newton cashFlows * 100

/-! ## Derived predicates and concrete instances used by the theorems -/

def witnessSellTxn : Txn :=
  ⟨0, "ORPH", .SELL, 5, 10, 1, 1, 48, false, "", "", none⟩

def witnessOpenTxn : Txn :=
  ⟨0, "XYZ260109C50", .OPTION_SELL_OPEN, 1, 0, 0, 0, 200, true, "", "", none⟩

def hifoNegLots : List Lot := [⟨1, -5, 0⟩, ⟨1, -2, 1⟩]

def hifoNegTxns : List Txn :=
  [⟨0, "NEG", .BUY, 1, -5, 0, 0, 0, false, "", "", none⟩,
   ⟨1, "NEG", .BUY, 1, -2, 0, 0, 0, false, "", "", none⟩,
   ⟨2, "NEG", .SELL, 1, 10, 0, 0, 10, false, "", "", none⟩]

def hifoWitnessLots : List Lot := [⟨1, 5, 0⟩, ⟨1, 9, 1⟩, ⟨1, 9, 2⟩, ⟨1, 7, 3⟩]

/-- Total tracked quantity of a lot list. -/
def sumQ (lots : List Lot) : ℚ := (lots.map (·.quantity)).sum

def witnessCovState : StockState :=
  ⟨[("XYZ", [⟨5, 10, 0⟩, ⟨5, 20, 86400000⟩])], [], 0, 0, 0, 0, 0, 0⟩

def witnessCovTxn : Txn :=
  ⟨172800000, "XYZ", .SELL, 8, 30, 1, 1, 238, false, "", "", none⟩

/-- The specification's formulation of the trade-level term: LONG when
every matched lot is LONG, SHORT when every matched lot is SHORT,
MIXED otherwise. -/
def specTradeTerm (lots : List SoldLot) : Term :=
  if lots.all (fun sl => sl.term == Term.LONG) then .LONG
  else if lots.all (fun sl => sl.term == Term.SHORT) then .SHORT
  else .MIXED

def lotsNonneg (positions : List (String × List Lot)) : Prop :=
  ∀ p ∈ positions, ∀ l ∈ p.2, 0 ≤ l.quantity

def optPositionsNonneg (positions : List (String × List OptPosition)) : Prop :=
  ∀ p ∈ positions, ∀ q ∈ p.2, 0 ≤ q.quantity

def witnessWashTxns : List Txn :=
  [⟨0, "WSH", .BUY, 1, 20, 0, 0, -20, false, "", "", none⟩,
   ⟨864000000, "WSH", .SELL, 1, 10, 0, 0, 10, false, "", "", none⟩,
   ⟨1296000000, "WSH", .BUY, 1, 10, 0, 0, -10, false, "", "", none⟩]

/-! ## Basic lemmas on the association-list map operations -/

theorem lookupSym_setSym_self {α : Type} (m : List (String × α)) (s : String) (v : α) :
    lookupSym (setSym m s v) s = some v := by
  induction m with
  | nil => simp [lookupSym, setSym, List.find?]
  | cons p rest ih =>
    obtain ⟨k, w⟩ := p
    by_cases hk : k == s
    · simp [setSym, hk, lookupSym, List.find?]
    · simp only [setSym, hk, if_false, Bool.false_eq_true]
      simpa [lookupSym, List.find?, hk] using ih

theorem mem_setSym {α : Type} {m : List (String × α)} {s : String} {v : α}
    {p : String × α} (hp : p ∈ setSym m s v) : p ∈ m ∨ p.2 = v := by
  induction m with
  | nil => simp [setSym] at hp; simp [hp]
  | cons q rest ih =>
    obtain ⟨k, w⟩ := q
    by_cases hk : k == s
    · simp only [setSym, hk, if_true] at hp
      rcases List.mem_cons.mp hp with h | h
      · right; rw [h]
      · left; exact List.mem_cons_of_mem _ h
    · simp only [setSym, hk, Bool.false_eq_true, if_false] at hp
      rcases List.mem_cons.mp hp with h | h
      · left; exact h ▸ List.mem_cons_self _ _
      · rcases ih h with h' | h'
        · left; exact List.mem_cons_of_mem _ h'
        · right; exact h'

theorem lookupSym_mem {α : Type} {m : List (String × α)} {s : String} {v : α}
    (h : lookupSym m s = some v) : ∃ k, (k, v) ∈ m := by
  unfold lookupSym at h
  obtain ⟨p, hfind, hv⟩ := Option.map_eq_some'.mp h
  exact ⟨p.1, by simpa [← hv] using List.mem_of_find?_eq_some hfind⟩

theorem mem_insertByDate {t u : Txn} {l : List Txn} :
    u ∈ insertByDate t l ↔ u = t ∨ u ∈ l := by
  induction l with
  | nil => simp [insertByDate, or_comm]
  | cons x rest ih =>
    unfold insertByDate
    by_cases hx : x.date < t.date
    · rw [if_pos hx]
      simp only [List.mem_cons, ih]
      tauto
    · rw [if_neg hx]
      simp only [List.mem_cons]

theorem mem_sortByDate {t : Txn} {l : List Txn} : t ∈ sortByDate l ↔ t ∈ l := by
  induction l with
  | nil => simp [sortByDate]
  | cons x rest ih =>
    simp only [sortByDate, List.foldr_cons] at *
    rw [mem_insertByDate, ih, List.mem_cons]

/-! ## C1: the orphaned-lot fallback -/

/-- **C1.** A SELL whose symbol has no open lots when it is processed
emits exactly one SELL trade with zero cost basis, proceeds
`quantity×price − commission − fees`, `realizedPL` equal to those
proceeds and term LONG, leaving the lot map untouched — the sell is
neither skipped nor an error. -/
theorem sell_without_lots_orphan_fallback (strategy : TaxStrategy) (st : StockState)
    (txn : Txn) (hty : txn.transactionType = .SELL)
    (hlots : (lookupSym st.positions txn.symbol).getD [] = []) :
    ∃ tr : StockTrade,
      (processStockTxn strategy st txn).trades = st.trades ++ [tr] ∧
      tr.type = .SELL ∧
      tr.totalCost = 0 ∧
      tr.totalProceeds = txn.quantity * txn.price - txn.commission - txn.fees ∧
      tr.realizedPL = tr.totalProceeds ∧
      tr.term = some .LONG ∧
      (processStockTxn strategy st txn).positions = st.positions := by
  unfold processStockTxn
  rw [hty]
  have hrpl : txn.quantity * txn.price - txn.commission - txn.fees - 0 =
      txn.quantity * txn.price - txn.commission - txn.fees :=
    sub_zero _
  by_cases hpl : txn.quantity * txn.price - txn.commission - txn.fees - 0 > 0
  · simp only [hlots, if_pos rfl, if_pos hpl]
    exact ⟨_, rfl, rfl, rfl, rfl, hrpl, rfl, rfl⟩
  · simp only [hlots, if_pos rfl, if_neg hpl]
    exact ⟨_, rfl, rfl, rfl, rfl, hrpl, rfl, rfl⟩

theorem sell_without_lots_orphan_fallback_witness :
    ∃ tr : StockTrade,
      (processStockTxn .FIFO initStockState witnessSellTxn).trades =
        initStockState.trades ++ [tr] ∧
      tr.type = .SELL ∧
      tr.totalCost = 0 ∧
      tr.totalProceeds = witnessSellTxn.quantity * witnessSellTxn.price -
        witnessSellTxn.commission - witnessSellTxn.fees ∧
      tr.realizedPL = tr.totalProceeds ∧
      tr.term = some .LONG ∧
      (processStockTxn .FIFO initStockState witnessSellTxn).positions =
        initStockState.positions :=
  sell_without_lots_orphan_fallback .FIFO initStockState witnessSellTxn rfl rfl

/-! ## C7: the XIRR degenerate-input guard -/

/-- **C7.** Whenever the constructed cash-flow series has fewer than 2
flows, `calculateXIRR` returns exactly `0` without invoking the Newton
iteration (so no failure can arise from it), whatever root-finder sits
behind it; in particular an empty transaction sequence yields `0` for
every current-value override. -/
theorem xirr_fewer_than_two_flows (newton : List CashFlow → ℚ) (txns : List Txn)
    (currentValue : ℚ) (today : Int)
    (h : (buildCashFlows txns currentValue today).length < 2) :
    calculateXIRR newton txns currentValue today = 0 ∧
    ∀ (cv : ℚ) (d : Int), calculateXIRR newton [] cv d = 0 := by
  constructor
  · unfold calculateXIRR
    rw [if_pos h]
  · intro cv d
    rfl

theorem xirr_fewer_than_two_flows_witness :
    calculateXIRR (fun _ => 37) [] 0 0 = 0 ∧
    ∀ (cv : ℚ) (d : Int), calculateXIRR (fun _ => 37) [] cv d = 0 :=
  xirr_fewer_than_two_flows (fun _ => 37) [] 0 0 (by decide)

/-! ## C10: closing events with no open position are silently skipped -/

/-- **C10.** An OPTION_BUY_CLOSE, OPTION_SELL_CLOSE, OPTION_EXPIRED or
OPTION_ASSIGNED transaction whose option symbol has an absent or empty
open-position queue leaves the engine state completely unchanged: no
trade is emitted and no total, strategy aggregate or position entry
moves. -/
theorem close_without_position_skipped (sp : List (String × List Lot))
    (os : List String) (st : OptState) (txn : Txn)
    (hty : txn.transactionType = .OPTION_BUY_CLOSE ∨
      txn.transactionType = .OPTION_SELL_CLOSE ∨
      txn.transactionType = .OPTION_EXPIRED ∨
      txn.transactionType = .OPTION_ASSIGNED)
    (hq : lookupSym st.positions txn.symbol = none ∨
      lookupSym st.positions txn.symbol = some []) :
    processOptionTxn sp os st txn = st := by
  unfold processOptionTxn
  rcases hty with h | h | h | h <;> rw [h] <;> rcases hq with h' | h' <;> simp [h']

theorem close_without_position_skipped_witness :
    processOptionTxn [] [] initOptState
      ⟨0, "AAPL260109C100", .OPTION_EXPIRED, 1, 0, 0, 0, 0, true, "", "", none⟩ =
      initOptState :=
  close_without_position_skipped [] [] initOptState _
    (Or.inr (Or.inr (Or.inl rfl))) (Or.inl rfl)

/-! ## C2: strategy classification at SELL_OPEN, and its propagation -/

/-- The close loop's final `strategy` is the strategy shared by the
queue's positions, whenever they all agree. -/
theorem closeLoop_strategy_uniform {s : OptStrategy} :
    ∀ (queue : List OptPosition) (remaining acc : ℚ) (strat : OptStrategy),
      (∀ p ∈ queue, p.strategy = s) → strat = s →
      (closeLoop remaining strat acc queue).2.2 = s := by
  intro queue
  induction queue with
  | nil =>
    intro remaining acc strat _ hs
    unfold closeLoop
    by_cases hr : 0 < remaining <;> simp [hr, hs]
  | cons pos rest ih =>
    intro remaining acc strat hall hs
    unfold closeLoop
    by_cases hr : 0 < remaining
    · rw [if_pos hr]
      by_cases hpq : pos.quantity ≤ remaining
      · simp only [hpq, if_pos]
        exact ih _ _ _ (fun p hp => hall p (List.mem_cons_of_mem _ hp))
          (hall pos (List.mem_cons_self _ _))
      · simp only [hpq, if_neg, Bool.false_eq_true]
        exact hall pos (List.mem_cons_self _ _)
    · rw [if_neg hr]
      exact hs

/-- Every close branch that consumes from a queue of uniform strategy
emits exactly one trade carrying that strategy. -/
theorem close_emits_trade_with_queue_strategy (sp : List (String × List Lot))
    (os : List String) (st : OptState) (txn : Txn) (queue : List OptPosition)
    (s : OptStrategy)
    (hty : txn.transactionType = .OPTION_BUY_CLOSE ∨
      txn.transactionType = .OPTION_SELL_CLOSE ∨
      txn.transactionType = .OPTION_EXPIRED ∨
      txn.transactionType = .OPTION_ASSIGNED)
    (hlk : lookupSym st.positions txn.symbol = some queue)
    (hne : queue ≠ [])
    (hall : ∀ p ∈ queue, p.strategy = s) :
    ∃ tr : OptionTrade,
      (processOptionTxn sp os st txn).trades = st.trades ++ [tr] ∧
      tr.strategy = s := by
  obtain ⟨q0, qrest, rfl⟩ : ∃ q0 qrest, queue = q0 :: qrest := by
    cases queue with
    | nil => exact absurd rfl hne
    | cons a b => exact ⟨a, b, rfl⟩
  have hq0 : q0.strategy = s := hall q0 (List.mem_cons_self _ _)
  have hstrat : ∀ (r acc : ℚ) (strat0 : OptStrategy), strat0 = s →
      (closeLoop r strat0 acc (q0 :: qrest)).2.2 = s :=
    fun r acc strat0 h0 => closeLoop_strategy_uniform (q0 :: qrest) r acc strat0 hall h0
  rcases hty with h | h | h | h <;> unfold processOptionTxn <;> rw [h] <;>
    simp only [hlk, List.cons_ne_nil, ne_eq, not_false_iff, if_neg, if_false,
      reduceCtorEq, ite_false, List.head?_cons, Option.map_some', Option.getD_some]
  · by_cases hpl : (closeLoop txn.quantity q0.strategy 0 (q0 :: qrest)).2.1 - |txn.amount| > 0
    · rw [if_pos hpl]
      exact ⟨_, rfl, hstrat _ _ _ hq0⟩
    · rw [if_neg hpl]
      exact ⟨_, rfl, hstrat _ _ _ hq0⟩
  · by_cases hpl : |txn.amount| - (closeLoop txn.quantity q0.strategy 0 (q0 :: qrest)).2.1 > 0
    · rw [if_pos hpl]
      exact ⟨_, rfl, hstrat _ _ _ hq0⟩
    · rw [if_neg hpl]
      exact ⟨_, rfl, hstrat _ _ _ hq0⟩
  · by_cases hside : q0.type = OptSide.SHORT
    · rw [if_pos hside]
      exact ⟨_, rfl, hq0⟩
    · rw [if_neg hside]
      exact ⟨_, rfl, hq0⟩
  · exact ⟨_, rfl, hq0⟩

/-- **C2.** An OPTION_SELL_OPEN is classified `coveredCalls` exactly
when its parsed option type is CALL and `cashSecuredPuts` when it is
PUT — unconditionally: the step's result does not depend on the stock
positions or the ownership evidence.  The classification is stored on
the opened position (whose side is SHORT) and on the emitted SELL_OPEN
trade, and any later close consuming a queue of positions carrying
that strategy emits its trade with the same strategy. -/
theorem sellOpen_strategy_classification (sp sp' : List (String × List Lot))
    (os os' : List String) (st : OptState) (txn : Txn)
    (hty : txn.transactionType = .OPTION_SELL_OPEN) :
    processOptionTxn sp os st txn = processOptionTxn sp' os' st txn ∧
    ∃ pos : OptPosition, ∃ tr : OptionTrade,
      lookupSym (processOptionTxn sp os st txn).positions txn.symbol =
        some ((lookupSym st.positions txn.symbol).getD [] ++ [pos]) ∧
      (processOptionTxn sp os st txn).trades = st.trades ++ [tr] ∧
      pos.strategy = (if getOptionType txn.symbol = .CALL then
        OptStrategy.coveredCalls else OptStrategy.cashSecuredPuts) ∧
      tr.strategy = pos.strategy ∧
      pos.type = .SHORT ∧
      (∀ (st' : OptState) (txn' : Txn) (queue : List OptPosition),
        (txn'.transactionType = .OPTION_BUY_CLOSE ∨
          txn'.transactionType = .OPTION_SELL_CLOSE ∨
          txn'.transactionType = .OPTION_EXPIRED ∨
          txn'.transactionType = .OPTION_ASSIGNED) →
        lookupSym st'.positions txn'.symbol = some queue → queue ≠ [] →
        (∀ p ∈ queue, p.strategy = pos.strategy) →
        ∃ tr' : OptionTrade,
          (processOptionTxn sp os st' txn').trades = st'.trades ++ [tr'] ∧
          tr'.strategy = pos.strategy) := by
  refine ⟨rfl, ?_⟩
  unfold processOptionTxn
  rw [hty]
  exact ⟨_, _, lookupSym_setSym_self _ _ _, rfl, rfl, rfl, rfl,
    fun st' txn' queue hty' hlk hne hall =>
      close_emits_trade_with_queue_strategy sp os st' txn' queue _ hty' hlk hne hall⟩

theorem sellOpen_strategy_classification_witness :
    processOptionTxn [] [] initOptState witnessOpenTxn =
      processOptionTxn [("XYZ", [⟨100, 5, 0⟩])] ["XYZ"] initOptState witnessOpenTxn ∧
    ∃ pos : OptPosition, ∃ tr : OptionTrade,
      lookupSym (processOptionTxn [] [] initOptState witnessOpenTxn).positions
        witnessOpenTxn.symbol =
        some ((lookupSym initOptState.positions witnessOpenTxn.symbol).getD [] ++ [pos]) ∧
      (processOptionTxn [] [] initOptState witnessOpenTxn).trades =
        initOptState.trades ++ [tr] ∧
      pos.strategy = (if getOptionType witnessOpenTxn.symbol = .CALL then
        OptStrategy.coveredCalls else OptStrategy.cashSecuredPuts) ∧
      tr.strategy = pos.strategy ∧
      pos.type = .SHORT ∧
      (∀ (st' : OptState) (txn' : Txn) (queue : List OptPosition),
        (txn'.transactionType = .OPTION_BUY_CLOSE ∨
          txn'.transactionType = .OPTION_SELL_CLOSE ∨
          txn'.transactionType = .OPTION_EXPIRED ∨
          txn'.transactionType = .OPTION_ASSIGNED) →
        lookupSym st'.positions txn'.symbol = some queue → queue ≠ [] →
        (∀ p ∈ queue, p.strategy = pos.strategy) →
        ∃ tr' : OptionTrade,
          (processOptionTxn [] [] st' txn').trades = st'.trades ++ [tr'] ∧
          tr'.strategy = pos.strategy) :=
  sellOpen_strategy_classification [] [("XYZ", [⟨100, 5, 0⟩])] [] ["XYZ"]
    initOptState witnessOpenTxn rfl

/-! ## C4: lot selection -/

/-- Invariant of the HIFO `forEach` scan: either no lot beats the
running maximum (result unchanged), or the result points at the first
occurrence of the overall maximum among those beating it. -/
theorem hifoAux_spec (lots : List Lot) : ∀ (idx best : Nat) (maxCost : ℚ),
    (hifoAux lots idx best maxCost = (best, maxCost) ∧
      ∀ l ∈ lots, l.costPerShare ≤ maxCost) ∨
    (∃ (k : Nat) (hk : k < lots.length),
      (hifoAux lots idx best maxCost).1 = idx + k ∧
      (hifoAux lots idx best maxCost).2 = lots[k].costPerShare ∧
      maxCost < lots[k].costPerShare ∧
      (∀ l ∈ lots, l.costPerShare ≤ lots[k].costPerShare) ∧
      (∀ (j : Nat) (hj : j < lots.length), j < k →
        lots[j].costPerShare < lots[k].costPerShare)) := by
  induction lots with
  | nil =>
    intro idx best maxCost
    left
    exact ⟨rfl, by simp⟩
  | cons l rest ih =>
    intro idx best maxCost
    unfold hifoAux
    by_cases hc : l.costPerShare > maxCost
    · rw [if_pos hc]
      rcases ih (idx + 1) idx l.costPerShare with ⟨heq, hall⟩ | ⟨k, hk, h1, h2, h3, h4, h5⟩
      · right
        refine ⟨0, Nat.succ_pos _, ?_, ?_, ?_, ?_, ?_⟩
        · simp [heq]
        · simp [heq]
        · simpa using hc
        · intro x hx
          rcases List.mem_cons.mp hx with rfl | hx'
          · simp
          · simpa using hall x hx'
        · intro j hj hj0
          exact absurd hj0 (Nat.not_lt_zero j)
      · right
        refine ⟨k + 1, Nat.succ_lt_succ hk, ?_, ?_, ?_, ?_, ?_⟩
        · rw [h1]; omega
        · rw [h2]; simp
        · simpa using lt_trans hc h3
        · intro x hx
          rcases List.mem_cons.mp hx with rfl | hx'
          · simpa using le_of_lt h3
          · simpa using h4 x hx'
        · intro j hj hjk
          cases j with
          | zero => simpa using h3
          | succ j' =>
            simpa using h5 j' (by simpa using hj) (Nat.lt_of_succ_lt_succ hjk)
    · rw [if_neg hc]
      have hle : l.costPerShare ≤ maxCost := not_lt.mp hc
      rcases ih (idx + 1) best maxCost with ⟨heq, hall⟩ | ⟨k, hk, h1, h2, h3, h4, h5⟩
      · left
        refine ⟨heq, ?_⟩
        intro x hx
        rcases List.mem_cons.mp hx with rfl | hx'
        · exact hle
        · exact hall x hx'
      · right
        refine ⟨k + 1, Nat.succ_lt_succ hk, ?_, ?_, ?_, ?_, ?_⟩
        · rw [h1]; omega
        · rw [h2]; simp
        · simpa using h3
        · intro x hx
          rcases List.mem_cons.mp hx with rfl | hx'
          · simpa using le_of_lt (lt_of_le_of_lt hle h3)
          · simpa using h4 x hx'
        · intro j hj hjk
          cases j with
          | zero => simpa using lt_of_le_of_lt hle h3
          | succ j' =>
            simpa using h5 j' (by simpa using hj) (Nat.lt_of_succ_lt_succ hjk)

/-- The selected lot index is always in range for a nonempty list. -/
theorem selectLotIndex_lt (strategy : TaxStrategy) (lots : List Lot)
    (hne : lots ≠ []) : selectLotIndex strategy lots < lots.length := by
  have hlen : 0 < lots.length := List.length_pos.mpr hne
  cases strategy with
  | FIFO => simpa [selectLotIndex] using hlen
  | LIFO => simp only [selectLotIndex]; omega
  | HIFO =>
    rcases hifoAux_spec lots 0 0 (-1) with ⟨heq, _⟩ | ⟨k, hk, h1, _⟩
    · simpa [selectLotIndex, heq] using hlen
    · simp only [selectLotIndex, h1]
      omega

/-- **C4, counterexample.** When every lot's `costPerShare` is at most
`-1` (reachable from BUY transactions with negative prices), the HIFO
scan never updates its `(lotIndex, maxCost) = (0, -1)` seed, so it
selects index 0 even though a strictly higher-cost lot exists at
index 1 — the matcher consumes the `-5`-cost lot, not the highest-cost
`-2` one, contradicting the claim as stated. -/
theorem hifo_all_below_neg_one_counterexample :
    selectLotIndex .HIFO hifoNegLots = 0 ∧
    (hifoNegLots.getD 0 default).costPerShare <
      (hifoNegLots.getD 1 default).costPerShare ∧
    lookupSym (calculateStockGains hifoNegTxns .HIFO).positions "NEG" =
      some [⟨1, -2, 1⟩] ∧
    (((calculateStockGains hifoNegTxns .HIFO).trades.getD 2 default).lots.getD 0
      default).cost = -5 := by decide

/-- **C4 (amended).** At every lot-selection step, FIFO picks the
lowest index and LIFO the highest.  HIFO picks the first occurrence of
the numerically highest `costPerShare` provided some lot's
`costPerShare` exceeds the scan's `-1` seed (in particular always when
prices, commissions and fees are non-negative); when every lot's
`costPerShare` is at most `-1`, it picks index 0 instead. -/
theorem selectLotIndex_spec (strategy : TaxStrategy) (lots : List Lot)
    (_hne : lots ≠ []) :
    (strategy = .FIFO → selectLotIndex strategy lots = 0) ∧
    (strategy = .LIFO → selectLotIndex strategy lots = lots.length - 1) ∧
    (strategy = .HIFO →
      ((∃ l ∈ lots, -1 < l.costPerShare) →
        ∃ hsel : selectLotIndex strategy lots < lots.length,
          (∀ (j : Nat) (hj : j < lots.length),
            lots[j].costPerShare ≤ lots[selectLotIndex strategy lots].costPerShare) ∧
          (∀ (j : Nat) (hj : j < lots.length), j < selectLotIndex strategy lots →
            lots[j].costPerShare < lots[selectLotIndex strategy lots].costPerShare)) ∧
      ((∀ l ∈ lots, l.costPerShare ≤ -1) → selectLotIndex strategy lots = 0)) := by
  refine ⟨fun h => by rw [h]; rfl, fun h => by rw [h]; rfl, fun h => ?_⟩
  subst h
  constructor
  · rintro ⟨l, hl, hgt⟩
    rcases hifoAux_spec lots 0 0 (-1) with ⟨_, hall⟩ | ⟨k, hk, h1, _, _, h4, h5⟩
    · exact absurd (hall l hl) (not_le.mpr hgt)
    · have hsel' : selectLotIndex .HIFO lots = k := by
        simp only [selectLotIndex, h1, Nat.zero_add]
      rw [hsel']
      refine ⟨hk, ?_, ?_⟩
      · intro j hj
        exact h4 lots[j] (List.getElem_mem hj)
      · intro j hj hjk
        exact h5 j hj hjk
  · intro hall2
    rcases hifoAux_spec lots 0 0 (-1) with ⟨heq, _⟩ | ⟨k, hk, _, _, h3, _, _⟩
    · simp [selectLotIndex, heq]
    · exact absurd (hall2 lots[k] (List.getElem_mem hk)) (not_le.mpr h3)

theorem selectLotIndex_spec_witness :
    (TaxStrategy.HIFO = .FIFO → selectLotIndex .HIFO hifoWitnessLots = 0) ∧
    (TaxStrategy.HIFO = .LIFO →
      selectLotIndex .HIFO hifoWitnessLots = hifoWitnessLots.length - 1) ∧
    (TaxStrategy.HIFO = .HIFO →
      ((∃ l ∈ hifoWitnessLots, -1 < l.costPerShare) →
        ∃ hsel : selectLotIndex .HIFO hifoWitnessLots < hifoWitnessLots.length,
          (∀ (j : Nat) (hj : j < hifoWitnessLots.length),
            hifoWitnessLots[j].costPerShare ≤
              hifoWitnessLots[selectLotIndex .HIFO hifoWitnessLots].costPerShare) ∧
          (∀ (j : Nat) (hj : j < hifoWitnessLots.length),
            j < selectLotIndex .HIFO hifoWitnessLots →
            hifoWitnessLots[j].costPerShare <
              hifoWitnessLots[selectLotIndex .HIFO hifoWitnessLots].costPerShare)) ∧
      ((∀ l ∈ hifoWitnessLots, l.costPerShare ≤ -1) →
        selectLotIndex .HIFO hifoWitnessLots = 0)) :=
  selectLotIndex_spec .HIFO hifoWitnessLots (by decide)

/-! ## Lemmas on the SELL lot-consuming loop -/

theorem sumQ_eraseIdx : ∀ (l : List Lot) (i : Nat) (hi : i < l.length),
    sumQ (l.eraseIdx i) = sumQ l - l[i].quantity := by
  intro l
  induction l with
  | nil => intro i hi; simp at hi
  | cons x rest ih =>
    intro i hi
    cases i with
    | zero => simp [sumQ]
    | succ i' =>
      have hi' : i' < rest.length := by simpa using hi
      simp only [List.eraseIdx_cons_succ, sumQ, List.map_cons, List.sum_cons,
        List.getElem_cons_succ]
      have h := ih i' hi'
      simp only [sumQ] at h
      rw [h]
      ring

/-- The cost bookkeeping of the SELL loop: the accumulated
`totalCost` is the sum of the recorded lot costs, and every recorded
lot closure carries the prorated proceeds, the `cost = units ×
costPerShare` of a lot drawn from the input sequence, the difference
as its P&L, and the ceiling-days term classification. -/
theorem sellLoop_soldLots_spec (strategy : TaxStrategy) (sellDate : Int)
    (sellQty totalProceeds : ℚ) :
    ∀ (fuel : Nat) (remaining : ℚ) (lots : List Lot),
      (sellLoop strategy sellDate sellQty totalProceeds fuel remaining lots).totalCost =
        (((sellLoop strategy sellDate sellQty totalProceeds fuel remaining
          lots).soldLots).map (·.cost)).sum ∧
      ∀ sl ∈ (sellLoop strategy sellDate sellQty totalProceeds fuel remaining
          lots).soldLots,
        ∃ lot ∈ lots, sl.date = lot.date ∧
          sl.cost = sl.quantity * lot.costPerShare ∧
          sl.proceeds = sl.quantity / sellQty * totalProceeds ∧
          sl.realizedPL = sl.proceeds - sl.cost ∧
          sl.daysHeld = daysHeldOf sellDate lot.date ∧
          sl.term = termOfDays sl.daysHeld := by
  intro fuel
  induction fuel with
  | zero =>
    intro remaining lots
    exact ⟨by simp [sellLoop], by simp [sellLoop]⟩
  | succ fuel ih =>
    intro remaining lots
    unfold sellLoop
    by_cases hg : 0 < remaining ∧ lots ≠ []
    · rw [if_pos hg]
      have hi : selectLotIndex strategy lots < lots.length :=
        selectLotIndex_lt strategy lots hg.2
      have hmem : lots.getD (selectLotIndex strategy lots) default ∈ lots := by
        rw [List.getD_eq_getElem _ _ hi]
        exact List.getElem_mem hi
      by_cases hle : (lots.getD (selectLotIndex strategy lots) default).quantity ≤ remaining
      · rw [if_pos hle]
        obtain ⟨ihc, ihl⟩ := ih
          (remaining - (lots.getD (selectLotIndex strategy lots) default).quantity)
          (lots.eraseIdx (selectLotIndex strategy lots))
        refine ⟨?_, ?_⟩
        · simpa using ihc
        · intro sl hsl
          rcases List.mem_cons.mp hsl with rfl | hsl'
          · exact ⟨_, hmem, rfl, rfl, rfl, rfl, rfl, rfl⟩
          · obtain ⟨lot, hlot, hrest⟩ := ihl sl hsl'
            exact ⟨lot, (List.eraseIdx_sublist lots
              (selectLotIndex strategy lots)).subset hlot, hrest⟩
      · rw [if_neg hle]
        refine ⟨by simp, ?_⟩
        intro sl hsl
        rcases List.mem_cons.mp hsl with rfl | hsl'
        · exact ⟨_, hmem, rfl, rfl, rfl, rfl, rfl, rfl⟩
        · simp at hsl'
    · rw [if_neg hg]
      exact ⟨by simp, by simp⟩

/-- With enough fuel, a non-negative sell quantity covered by the
available lots is consumed completely. -/
theorem sellLoop_remaining_zero (strategy : TaxStrategy) (sellDate : Int)
    (sellQty totalProceeds : ℚ) :
    ∀ (fuel : Nat) (remaining : ℚ) (lots : List Lot),
      lots.length ≤ fuel → 0 ≤ remaining → remaining ≤ sumQ lots →
      (sellLoop strategy sellDate sellQty totalProceeds fuel remaining
        lots).remaining = 0 := by
  intro fuel
  induction fuel with
  | zero =>
    intro remaining lots hlen h0 hcov
    have : lots = [] := List.length_eq_zero.mp (Nat.le_zero.mp hlen)
    subst this
    simp only [sumQ, List.map_nil, List.sum_nil] at hcov
    have : remaining = 0 := le_antisymm hcov h0
    simp [sellLoop, this]
  | succ fuel ih =>
    intro remaining lots hlen h0 hcov
    unfold sellLoop
    by_cases hg : 0 < remaining ∧ lots ≠ []
    · rw [if_pos hg]
      have hi : selectLotIndex strategy lots < lots.length :=
        selectLotIndex_lt strategy lots hg.2
      have hgetD : lots.getD (selectLotIndex strategy lots) default =
          lots[selectLotIndex strategy lots] :=
        List.getD_eq_getElem _ _ hi
      by_cases hle : (lots.getD (selectLotIndex strategy lots) default).quantity ≤ remaining
      · rw [if_pos hle]
        have hlen' : (lots.eraseIdx (selectLotIndex strategy lots)).length ≤ fuel := by
          rw [List.length_eraseIdx, if_pos hi]
          omega
        have h0' : 0 ≤ remaining -
            (lots.getD (selectLotIndex strategy lots) default).quantity :=
          sub_nonneg.mpr hle
        have hcov' : remaining -
            (lots.getD (selectLotIndex strategy lots) default).quantity ≤
            sumQ (lots.eraseIdx (selectLotIndex strategy lots)) := by
          rw [sumQ_eraseIdx lots _ hi, hgetD]
          exact sub_le_sub_right hcov _
        simpa using ih _ _ hlen' h0' hcov'
      · rw [if_neg hle]
    · rw [if_neg hg]
      rcases not_and_or.mp hg with h | h
      · have hr0 : remaining = 0 := le_antisymm (not_lt.mp h) h0
        simpa using hr0
      · have : lots = [] := not_not.mp h
        subst this
        simp only [sumQ, List.map_nil, List.sum_nil] at hcov
        simpa using le_antisymm hcov h0

/-- The loop never drives a lot quantity negative. -/
theorem sellLoop_lots_nonneg (strategy : TaxStrategy) (sellDate : Int)
    (sellQty totalProceeds : ℚ) :
    ∀ (fuel : Nat) (remaining : ℚ) (lots : List Lot),
      (∀ l ∈ lots, 0 ≤ l.quantity) →
      ∀ l ∈ (sellLoop strategy sellDate sellQty totalProceeds fuel remaining
        lots).lots, 0 ≤ l.quantity := by
  intro fuel
  induction fuel with
  | zero =>
    intro remaining lots hall
    simpa [sellLoop] using hall
  | succ fuel ih =>
    intro remaining lots hall
    unfold sellLoop
    by_cases hg : 0 < remaining ∧ lots ≠ []
    · rw [if_pos hg]
      by_cases hle : (lots.getD (selectLotIndex strategy lots) default).quantity ≤ remaining
      · rw [if_pos hle]
        intro l hl
        exact ih _ _ (fun x hx => hall x
          ((List.eraseIdx_sublist lots (selectLotIndex strategy lots)).subset hx)) l hl
      · rw [if_neg hle]
        intro l hl
        rcases List.mem_or_eq_of_mem_set hl with h | h
        · exact hall l h
        · rw [h]
          have : remaining < (lots.getD (selectLotIndex strategy lots) default).quantity :=
            not_le.mp hle
          simpa using le_of_lt (sub_pos.mpr this)
    · rw [if_neg hg]
      exact hall

/-- A positive sell quantity against a nonempty lot list records at
least one lot closure. -/
theorem sellLoop_soldLots_ne_nil (strategy : TaxStrategy) (sellDate : Int)
    (sellQty totalProceeds : ℚ) (fuel : Nat) (remaining : ℚ) (lots : List Lot)
    (hf : 0 < fuel) (hr : 0 < remaining) (hne : lots ≠ []) :
    (sellLoop strategy sellDate sellQty totalProceeds fuel remaining
      lots).soldLots ≠ [] := by
  cases fuel with
  | zero => exact absurd hf (lt_irrefl 0)
  | succ fuel =>
    unfold sellLoop
    rw [if_pos ⟨hr, hne⟩]
    by_cases hle : (lots.getD (selectLotIndex strategy lots) default).quantity ≤ remaining
    · rw [if_pos hle]
      simp
    · rw [if_neg hle]
      simp

/-- `accumTermTotals` only moves the four term totals. -/
theorem accumTermTotals_fields : ∀ (sl : List SoldLot) (st : StockState),
    (accumTermTotals st sl).trades = st.trades ∧
    (accumTermTotals st sl).positions = st.positions := by
  intro sl
  induction sl with
  | nil => intro st; exact ⟨rfl, rfl⟩
  | cons x rest ih =>
    intro st
    unfold accumTermTotals
    rw [List.foldl_cons]
    have step : ∀ st' : StockState,
        ((if x.term = Term.LONG then
            if x.realizedPL > 0 then
              { st' with longTermGains := st'.longTermGains + x.realizedPL }
            else { st' with longTermLosses := st'.longTermLosses + x.realizedPL }
          else
            if x.realizedPL > 0 then
              { st' with shortTermGains := st'.shortTermGains + x.realizedPL }
            else { st' with shortTermLosses := st'.shortTermLosses + x.realizedPL }) :
          StockState).trades = st'.trades ∧
        ((if x.term = Term.LONG then
            if x.realizedPL > 0 then
              { st' with longTermGains := st'.longTermGains + x.realizedPL }
            else { st' with longTermLosses := st'.longTermLosses + x.realizedPL }
          else
            if x.realizedPL > 0 then
              { st' with shortTermGains := st'.shortTermGains + x.realizedPL }
            else { st' with shortTermLosses := st'.shortTermLosses + x.realizedPL }) :
          StockState).positions = st'.positions := by
      intro st'
      by_cases ht : x.term = Term.LONG <;> by_cases hp : x.realizedPL > 0 <;>
        simp [ht, hp]
    have ihres := ih ((if x.term = Term.LONG then
        if x.realizedPL > 0 then
          { st with longTermGains := st.longTermGains + x.realizedPL }
        else { st with longTermLosses := st.longTermLosses + x.realizedPL }
      else
        if x.realizedPL > 0 then
          { st with shortTermGains := st.shortTermGains + x.realizedPL }
        else { st with shortTermLosses := st.shortTermLosses + x.realizedPL }))
    unfold accumTermTotals at ihres
    exact ⟨ihres.1.trans (step st).1, ihres.2.trans (step st).2⟩

/-! ## C5: exact cost and P&L bookkeeping of a fully covered SELL -/

/-- **C5.** A SELL whose quantity is non-negative and fully covered by
the symbol's existing lots emits one SELL trade whose `totalCost` is
exactly the sum of its recorded lot costs (each `units consumed ×
costPerShare` of a lot of that symbol), whose `realizedPL` is exactly
`totalProceeds − totalCost`, and whose per-lot proceeds are prorated
as `(units consumed / sell quantity) × totalProceeds`. -/
theorem sell_fully_covered_exact_totals (strategy : TaxStrategy) (st : StockState)
    (txn : Txn) (hty : txn.transactionType = .SELL)
    (hne : (lookupSym st.positions txn.symbol).getD [] ≠ [])
    (hq0 : 0 ≤ txn.quantity)
    (hcov : txn.quantity ≤ sumQ ((lookupSym st.positions txn.symbol).getD [])) :
    ∃ tr : StockTrade,
      (processStockTxn strategy st txn).trades = st.trades ++ [tr] ∧
      tr.totalProceeds = txn.quantity * txn.price - txn.commission - txn.fees ∧
      tr.totalCost = ((tr.lots).map (·.cost)).sum ∧
      tr.realizedPL = tr.totalProceeds - tr.totalCost ∧
      ∀ sl ∈ tr.lots,
        sl.proceeds = sl.quantity / txn.quantity * tr.totalProceeds ∧
        sl.realizedPL = sl.proceeds - sl.cost ∧
        ∃ lot ∈ (lookupSym st.positions txn.symbol).getD [],
          sl.cost = sl.quantity * lot.costPerShare := by
  unfold processStockTxn
  rw [hty]
  have hrem : (sellLoop strategy txn.date txn.quantity
      (txn.quantity * txn.price - txn.commission - txn.fees)
      ((lookupSym st.positions txn.symbol).getD []).length txn.quantity
      ((lookupSym st.positions txn.symbol).getD [])).remaining = 0 :=
    sellLoop_remaining_zero _ _ _ _ _ _ _ (le_refl _) hq0 hcov
  obtain ⟨hcost, hlots⟩ := sellLoop_soldLots_spec strategy txn.date txn.quantity
    (txn.quantity * txn.price - txn.commission - txn.fees)
    ((lookupSym st.positions txn.symbol).getD []).length txn.quantity
    ((lookupSym st.positions txn.symbol).getD [])
  simp only [if_neg hne, hrem, lt_irrefl, if_false, reduceIte]
  set out := sellLoop strategy txn.date txn.quantity
    (txn.quantity * txn.price - txn.commission - txn.fees)
    ((lookupSym st.positions txn.symbol).getD []).length txn.quantity
    ((lookupSym st.positions txn.symbol).getD []) with hout
  by_cases hpl : txn.quantity * txn.price - txn.commission - txn.fees -
      out.totalCost > 0
  all_goals
    first
      | rw [if_pos hpl]
      | rw [if_neg hpl]
  all_goals {
    refine ⟨⟨txn.date, txn.symbol, .SELL, txn.quantity, txn.price,
      txn.quantity * txn.price - txn.commission - txn.fees, out.totalCost,
      txn.quantity * txn.price - txn.commission - txn.fees - out.totalCost,
      some (tradeTermOf out.soldLots), out.soldLots, false, none⟩,
      ?_, rfl, hcost, rfl, ?_⟩
    · rw [(accumTermTotals_fields out.soldLots _).1]
    · intro sl hsl
      obtain ⟨lot, hlot, _, hc, hp, hr, _, _⟩ := hlots sl hsl
      exact ⟨hp, hr.trans (by rw [hp]), lot, hlot, hc⟩ }

theorem sell_fully_covered_exact_totals_witness :
    ∃ tr : StockTrade,
      (processStockTxn .FIFO witnessCovState witnessCovTxn).trades =
        witnessCovState.trades ++ [tr] ∧
      tr.totalProceeds = witnessCovTxn.quantity * witnessCovTxn.price -
        witnessCovTxn.commission - witnessCovTxn.fees ∧
      tr.totalCost = ((tr.lots).map (·.cost)).sum ∧
      tr.realizedPL = tr.totalProceeds - tr.totalCost ∧
      ∀ sl ∈ tr.lots,
        sl.proceeds = sl.quantity / witnessCovTxn.quantity * tr.totalProceeds ∧
        sl.realizedPL = sl.proceeds - sl.cost ∧
        ∃ lot ∈ (lookupSym witnessCovState.positions witnessCovTxn.symbol).getD [],
          sl.cost = sl.quantity * lot.costPerShare :=
  sell_fully_covered_exact_totals .FIFO witnessCovState witnessCovTxn rfl
    (by decide) (by decide) (by decide)

/-! ## C6: holding-period and term classification -/

theorem foldl_insert_of_all_mem {α : Type} [DecidableEq α] :
    ∀ (ts acc : List α), (∀ t ∈ ts, t ∈ acc) →
      ts.foldl (fun acc t => if t ∈ acc then acc else acc ++ [t]) acc = acc := by
  intro ts
  induction ts with
  | nil => intro acc _; rfl
  | cons t rest ih =>
    intro acc hall
    rw [List.foldl_cons, if_pos (hall t (List.mem_cons_self _ _))]
    exact ih acc (fun x hx => hall x (List.mem_cons_of_mem _ hx))

theorem mem_foldl_insert {α : Type} [DecidableEq α] :
    ∀ (ts acc : List α) (x : α), x ∈ acc ∨ x ∈ ts →
      x ∈ ts.foldl (fun acc t => if t ∈ acc then acc else acc ++ [t]) acc := by
  intro ts
  induction ts with
  | nil =>
    intro acc x hx
    rcases hx with h | h
    · exact h
    · simp at h
  | cons t rest ih =>
    intro acc x hx
    rw [List.foldl_cons]
    by_cases ht : t ∈ acc
    · rw [if_pos ht]
      rcases hx with h | h
      · exact ih acc x (Or.inl h)
      · rcases List.mem_cons.mp h with rfl | h'
        · exact ih acc x (Or.inl ht)
        · exact ih acc x (Or.inr h')
    · rw [if_neg ht]
      rcases hx with h | h
      · exact ih _ x (Or.inl (List.mem_append_left _ h))
      · rcases List.mem_cons.mp h with rfl | h'
        · exact ih _ x (Or.inl (List.mem_append_right _ (List.mem_singleton.mpr rfl)))
        · exact ih _ x (Or.inr h')

theorem jsSetList_const {α : Type} [DecidableEq α] (x : α) :
    ∀ ts : List α, ts ≠ [] → (∀ t ∈ ts, t = x) → jsSetList ts = [x] := by
  intro ts hne hall
  cases ts with
  | nil => exact absurd rfl hne
  | cons t rest =>
    have ht : t = x := hall t (List.mem_cons_self _ _)
    subst ht
    unfold jsSetList
    rw [List.foldl_cons, if_neg (List.not_mem_nil t), List.nil_append]
    exact foldl_insert_of_all_mem rest [t]
      (fun y hy => (hall y (List.mem_cons_of_mem _ hy)) ▸ List.mem_singleton.mpr rfl)

theorem two_mem_length {α : Type} {a b : α} {l : List α}
    (ha : a ∈ l) (hb : b ∈ l) (hab : a ≠ b) : 2 ≤ l.length := by
  cases l with
  | nil => simp at ha
  | cons x xs =>
    cases xs with
    | nil =>
      rw [List.mem_singleton] at ha hb
      exact absurd (ha.trans hb.symm) hab
    | cons y ys => simp
      [Nat.succ_le_succ, Nat.le_add_left]

/-- The code's `Set`-based trade term agrees with the specification's
all-LONG/all-SHORT/otherwise-MIXED formulation on any nonempty list of
lot closures whose terms are LONG or SHORT. -/
theorem tradeTermOf_eq_spec (lots : List SoldLot) (hne : lots ≠ [])
    (hbin : ∀ sl ∈ lots, sl.term = .LONG ∨ sl.term = .SHORT) :
    tradeTermOf lots = specTradeTerm lots := by
  have hmapne : lots.map (·.term) ≠ [] := by
    simpa [List.map_eq_nil_iff] using hne
  by_cases hallL : ∀ sl ∈ lots, sl.term = Term.LONG
  · have hset : jsSetList (lots.map (·.term)) = [Term.LONG] :=
      jsSetList_const _ _ hmapne (by
        intro t ht
        obtain ⟨sl, hsl, rfl⟩ := List.mem_map.mp ht
        exact hallL sl hsl)
    have hspec : specTradeTerm lots = Term.LONG := by
      unfold specTradeTerm
      rw [if_pos (List.all_eq_true.mpr (fun sl hsl => beq_iff_eq.mpr (hallL sl hsl)))]
    rw [hspec]
    unfold tradeTermOf
    rw [hset]
    rfl
  · by_cases hallS : ∀ sl ∈ lots, sl.term = Term.SHORT
    · have hset : jsSetList (lots.map (·.term)) = [Term.SHORT] :=
        jsSetList_const _ _ hmapne (by
          intro t ht
          obtain ⟨sl, hsl, rfl⟩ := List.mem_map.mp ht
          exact hallS sl hsl)
      have hspec : specTradeTerm lots = Term.SHORT := by
        unfold specTradeTerm
        rw [if_neg, if_pos (List.all_eq_true.mpr
          (fun sl hsl => beq_iff_eq.mpr (hallS sl hsl)))]
        intro hc
        apply hallL
        intro sl hsl
        exact beq_iff_eq.mp (List.all_eq_true.mp hc sl hsl)
      rw [hspec]
      unfold tradeTermOf
      rw [hset]
      rfl
    · push_neg at hallL hallS
      obtain ⟨sl₁, hsl₁, hne₁⟩ := hallL
      obtain ⟨sl₂, hsl₂, hne₂⟩ := hallS
      have h₁ : sl₁.term = Term.SHORT := (hbin sl₁ hsl₁).resolve_left hne₁
      have h₂ : sl₂.term = Term.LONG := (hbin sl₂ hsl₂).resolve_right hne₂
      have hmemS : Term.SHORT ∈ jsSetList (lots.map (·.term)) := by
        unfold jsSetList
        exact mem_foldl_insert _ _ _ (Or.inr (List.mem_map.mpr ⟨sl₁, hsl₁, h₁⟩))
      have hmemL : Term.LONG ∈ jsSetList (lots.map (·.term)) := by
        unfold jsSetList
        exact mem_foldl_insert _ _ _ (Or.inr (List.mem_map.mpr ⟨sl₂, hsl₂, h₂⟩))
      have hlen : 2 ≤ (jsSetList (lots.map (·.term))).length :=
        two_mem_length hmemS hmemL (by decide)
      have hspec : specTradeTerm lots = Term.MIXED := by
        unfold specTradeTerm
        rw [if_neg, if_neg]
        · intro hc
          exact absurd (beq_iff_eq.mp (List.all_eq_true.mp hc sl₂ hsl₂))
            (h₂ ▸ (by decide : Term.LONG ≠ Term.SHORT))
        · intro hc
          exact absurd (beq_iff_eq.mp (List.all_eq_true.mp hc sl₁ hsl₁))
            (h₁ ▸ (by decide : Term.SHORT ≠ Term.LONG))
      rw [hspec]
      unfold tradeTermOf
      rw [if_pos (by omega)]

/-- **C6.** For a SELL fully covered by existing lots: every matched
lot closure's `daysHeld` is `ceil(|sellDate − lotDate| / 1 day)` and
its term is LONG exactly when that exceeds 365 days (otherwise SHORT);
the trade-level term is LONG when all matched lots are LONG, SHORT
when all are SHORT, and MIXED otherwise. -/
theorem sell_term_classification (strategy : TaxStrategy) (st : StockState)
    (txn : Txn) (hty : txn.transactionType = .SELL)
    (hne : (lookupSym st.positions txn.symbol).getD [] ≠ [])
    (hqpos : 0 < txn.quantity)
    (hcov : txn.quantity ≤ sumQ ((lookupSym st.positions txn.symbol).getD [])) :
    ∃ tr : StockTrade,
      (processStockTxn strategy st txn).trades = st.trades ++ [tr] ∧
      tr.lots ≠ [] ∧
      (∀ sl ∈ tr.lots,
        ∃ lot ∈ (lookupSym st.positions txn.symbol).getD [],
          sl.date = lot.date ∧
          sl.daysHeld = daysHeldOf txn.date lot.date ∧
          sl.term = (if sl.daysHeld > 365 then Term.LONG else Term.SHORT)) ∧
      tr.term = some (specTradeTerm tr.lots) := by
  unfold processStockTxn
  rw [hty]
  have hrem : (sellLoop strategy txn.date txn.quantity
      (txn.quantity * txn.price - txn.commission - txn.fees)
      ((lookupSym st.positions txn.symbol).getD []).length txn.quantity
      ((lookupSym st.positions txn.symbol).getD [])).remaining = 0 :=
    sellLoop_remaining_zero _ _ _ _ _ _ _ (le_refl _) (le_of_lt hqpos) hcov
  obtain ⟨_, hlots⟩ := sellLoop_soldLots_spec strategy txn.date txn.quantity
    (txn.quantity * txn.price - txn.commission - txn.fees)
    ((lookupSym st.positions txn.symbol).getD []).length txn.quantity
    ((lookupSym st.positions txn.symbol).getD [])
  have hsne : (sellLoop strategy txn.date txn.quantity
      (txn.quantity * txn.price - txn.commission - txn.fees)
      ((lookupSym st.positions txn.symbol).getD []).length txn.quantity
      ((lookupSym st.positions txn.symbol).getD [])).soldLots ≠ [] :=
    sellLoop_soldLots_ne_nil _ _ _ _ _ _ _
      (List.length_pos.mpr hne) hqpos hne
  simp only [if_neg hne, hrem, lt_irrefl, if_false, reduceIte]
  set out := sellLoop strategy txn.date txn.quantity
    (txn.quantity * txn.price - txn.commission - txn.fees)
    ((lookupSym st.positions txn.symbol).getD []).length txn.quantity
    ((lookupSym st.positions txn.symbol).getD []) with hout
  have hbin : ∀ sl ∈ out.soldLots, sl.term = Term.LONG ∨ sl.term = Term.SHORT := by
    intro sl hsl
    obtain ⟨lot, _, _, _, _, _, _, hterm⟩ := hlots sl hsl
    rw [hterm]
    unfold termOfDays
    by_cases hd : sl.daysHeld > 365
    · rw [if_pos hd]; exact Or.inl rfl
    · rw [if_neg hd]; exact Or.inr rfl
  have hperlot : ∀ sl ∈ out.soldLots,
      ∃ lot ∈ (lookupSym st.positions txn.symbol).getD [],
        sl.date = lot.date ∧
        sl.daysHeld = daysHeldOf txn.date lot.date ∧
        sl.term = (if sl.daysHeld > 365 then Term.LONG else Term.SHORT) := by
    intro sl hsl
    obtain ⟨lot, hlot, hdate, _, _, _, hdays, hterm⟩ := hlots sl hsl
    exact ⟨lot, hlot, hdate, hdays, hterm⟩
  have hterm_eq : tradeTermOf out.soldLots = specTradeTerm out.soldLots :=
    tradeTermOf_eq_spec out.soldLots hsne hbin
  by_cases hpl : txn.quantity * txn.price - txn.commission - txn.fees -
      out.totalCost > 0
  all_goals
    first
      | rw [if_pos hpl]
      | rw [if_neg hpl]
  all_goals {
    refine ⟨⟨txn.date, txn.symbol, .SELL, txn.quantity, txn.price,
      txn.quantity * txn.price - txn.commission - txn.fees, out.totalCost,
      txn.quantity * txn.price - txn.commission - txn.fees - out.totalCost,
      some (tradeTermOf out.soldLots), out.soldLots, false, none⟩,
      ?_, hsne, hperlot, ?_⟩
    · rw [(accumTermTotals_fields out.soldLots _).1]
    · rw [hterm_eq] }

theorem sell_term_classification_witness :
    ∃ tr : StockTrade,
      (processStockTxn .FIFO witnessCovState witnessCovTxn).trades =
        witnessCovState.trades ++ [tr] ∧
      tr.lots ≠ [] ∧
      (∀ sl ∈ tr.lots,
        ∃ lot ∈ (lookupSym witnessCovState.positions witnessCovTxn.symbol).getD [],
          sl.date = lot.date ∧
          sl.daysHeld = daysHeldOf witnessCovTxn.date lot.date ∧
          sl.term = (if sl.daysHeld > 365 then Term.LONG else Term.SHORT)) ∧
      tr.term = some (specTradeTerm tr.lots) :=
  sell_term_classification .FIFO witnessCovState witnessCovTxn rfl
    (by decide) (by decide) (by decide)

/-! ## C8: lot and position quantities never go negative -/

theorem lookupSym_nonneg {st : List (String × List Lot)} {s : String}
    (hst : lotsNonneg st) : ∀ l ∈ (lookupSym st s).getD [], 0 ≤ l.quantity := by
  cases hlk : lookupSym st s with
  | none => simp
  | some v =>
    obtain ⟨k, hk⟩ := lookupSym_mem hlk
    intro l hl
    exact hst (k, v) hk l (by simpa using hl)

/-- A SELL with open lots rewrites the symbol's lot list to the loop's
remaining lots and leaves every other binding alone. -/
theorem processStockTxn_sell_positions (strategy : TaxStrategy) (st : StockState)
    (txn : Txn) (hty : txn.transactionType = .SELL)
    (hne : (lookupSym st.positions txn.symbol).getD [] ≠ []) :
    (processStockTxn strategy st txn).positions =
      setSym st.positions txn.symbol
        (sellLoop strategy txn.date txn.quantity
          (txn.quantity * txn.price - txn.commission - txn.fees)
          ((lookupSym st.positions txn.symbol).getD []).length txn.quantity
          ((lookupSym st.positions txn.symbol).getD [])).lots := by
  unfold processStockTxn
  rw [hty]
  rw [if_neg hne]
  dsimp only
  rw [(accumTermTotals_fields _ _).2]
  simp only [apply_ite StockState.positions, ite_self]

/-- An orphaned SELL (no open lots) leaves the lot map unchanged. -/
theorem processStockTxn_orphan_positions (strategy : TaxStrategy) (st : StockState)
    (txn : Txn) (hty : txn.transactionType = .SELL)
    (hempty : (lookupSym st.positions txn.symbol).getD [] = []) :
    (processStockTxn strategy st txn).positions = st.positions := by
  unfold processStockTxn
  rw [hty]
  rw [if_pos hempty]
  dsimp only
  simp only [apply_ite StockState.positions, ite_self]

theorem processStockTxn_preserves_nonneg (strategy : TaxStrategy)
    (st : StockState) (txn : Txn) (hq : 0 ≤ txn.quantity)
    (hst : lotsNonneg st.positions) :
    lotsNonneg (processStockTxn strategy st txn).positions := by
  have hold : ∀ l ∈ (lookupSym st.positions txn.symbol).getD [], 0 ≤ l.quantity :=
    lookupSym_nonneg hst
  cases htype : txn.transactionType
  case BUY =>
    have hb : (processStockTxn strategy st txn).positions =
        setSym st.positions txn.symbol
          ((lookupSym st.positions txn.symbol).getD [] ++
            [⟨txn.quantity, txn.price + (txn.commission + txn.fees) / txn.quantity,
              txn.date⟩]) := by
      unfold processStockTxn
      rw [htype]
    rw [hb]
    intro p hp
    rcases mem_setSym hp with h | h
    · exact hst p h
    · rw [h]
      intro l hl
      rcases List.mem_append.mp hl with h' | h'
      · exact hold l h'
      · rw [List.mem_singleton.mp h']
        exact hq
  case SELL =>
    by_cases hplist : (lookupSym st.positions txn.symbol).getD [] = []
    · rw [processStockTxn_orphan_positions strategy st txn htype hplist]
      exact hst
    · rw [processStockTxn_sell_positions strategy st txn htype hplist]
      have hloop := sellLoop_lots_nonneg strategy txn.date txn.quantity
        (txn.quantity * txn.price - txn.commission - txn.fees)
        ((lookupSym st.positions txn.symbol).getD []).length txn.quantity
        ((lookupSym st.positions txn.symbol).getD []) hold
      intro p hp
      rcases mem_setSym hp with h | h
      · exact hst p h
      · rw [h]
        exact hloop
  all_goals {
    have hother : processStockTxn strategy st txn = st := by
      unfold processStockTxn
      rw [htype]
    rw [hother]
    exact hst }

theorem closeLoop_queue_nonneg :
    ∀ (queue : List OptPosition) (r acc : ℚ) (strat : OptStrategy),
      (∀ p ∈ queue, 0 ≤ p.quantity) →
      ∀ p ∈ (closeLoop r strat acc queue).1, 0 ≤ p.quantity := by
  intro queue
  induction queue with
  | nil =>
    intro r acc strat hall
    unfold closeLoop
    by_cases hr : 0 < r <;> simp [hr]
  | cons pos rest ih =>
    intro r acc strat hall
    unfold closeLoop
    by_cases hr : 0 < r
    · rw [if_pos hr]
      by_cases hle : pos.quantity ≤ r
      · simp only [hle, if_pos]
        exact ih _ _ _ (fun p hp => hall p (List.mem_cons_of_mem _ hp))
      · simp only [hle, if_neg, Bool.false_eq_true]
        intro p hp
        rcases List.mem_cons.mp hp with rfl | hp'
        · simpa using le_of_lt (sub_pos.mpr (not_le.mp hle))
        · exact hall p (List.mem_cons_of_mem _ hp')
    · rw [if_neg hr]
      exact hall

theorem lookupOptSym_nonneg {st : List (String × List OptPosition)} {s : String}
    {queue : List OptPosition} (hst : optPositionsNonneg st)
    (hlk : lookupSym st s = some queue) : ∀ p ∈ queue, 0 ≤ p.quantity := by
  obtain ⟨k, hk⟩ := lookupSym_mem hlk
  intro p hp
  exact hst (k, queue) hk p hp

theorem processOptionTxn_preserves_nonneg (sp : List (String × List Lot))
    (os : List String) (st : OptState) (txn : Txn) (hq : 0 ≤ txn.quantity)
    (hst : optPositionsNonneg st.positions) :
    optPositionsNonneg (processOptionTxn sp os st txn).positions := by
  unfold processOptionTxn
  cases htype : txn.transactionType <;> dsimp only
  case OPTION_SELL_OPEN =>
    intro p hp
    rcases mem_setSym hp with h | h
    · exact hst p h
    · rw [h]
      intro q hqm
      rcases List.mem_append.mp hqm with h' | h'
      · cases hlk : lookupSym st.positions txn.symbol with
        | none => rw [hlk] at h'; simp at h'
        | some v =>
          rw [hlk] at h'
          exact lookupOptSym_nonneg hst hlk q (by simpa using h')
      · rw [List.mem_singleton.mp h']
        exact hq
  case OPTION_BUY_OPEN =>
    intro p hp
    rcases mem_setSym hp with h | h
    · exact hst p h
    · rw [h]
      intro q hqm
      rcases List.mem_append.mp hqm with h' | h'
      · cases hlk : lookupSym st.positions txn.symbol with
        | none => rw [hlk] at h'; simp at h'
        | some v =>
          rw [hlk] at h'
          exact lookupOptSym_nonneg hst hlk q (by simpa using h')
      · rw [List.mem_singleton.mp h']
        exact hq
  case OPTION_BUY_CLOSE =>
    cases hlk : lookupSym st.positions txn.symbol with
    | none => exact hst
    | some queue =>
      dsimp only
      by_cases hqe : queue = []
      · rw [if_pos hqe]; exact hst
      · rw [if_neg hqe]
        have hqnn := lookupOptSym_nonneg hst hlk
        have hloop := closeLoop_queue_nonneg queue txn.quantity 0
          (((queue.head?).map (·.strategy)).getD .nakedCalls) hqnn
        by_cases hpl : (closeLoop txn.quantity
            (((queue.head?).map (·.strategy)).getD .nakedCalls) 0 queue).2.1 -
            |txn.amount| > 0 <;>
          [rw [if_pos hpl]; rw [if_neg hpl]] <;>
        · intro p hp
          rcases mem_setSym hp with h | h
          · exact hst p h
          · rw [h]; exact hloop
  case OPTION_SELL_CLOSE =>
    cases hlk : lookupSym st.positions txn.symbol with
    | none => exact hst
    | some queue =>
      dsimp only
      by_cases hqe : queue = []
      · rw [if_pos hqe]; exact hst
      · rw [if_neg hqe]
        have hqnn := lookupOptSym_nonneg hst hlk
        have hloop := closeLoop_queue_nonneg queue txn.quantity 0
          (((queue.head?).map (·.strategy)).getD .longCalls) hqnn
        by_cases hpl : |txn.amount| - (closeLoop txn.quantity
            (((queue.head?).map (·.strategy)).getD .longCalls) 0 queue).2.1 > 0 <;>
          [rw [if_pos hpl]; rw [if_neg hpl]] <;>
        · intro p hp
          rcases mem_setSym hp with h | h
          · exact hst p h
          · rw [h]; exact hloop
  case OPTION_EXPIRED =>
    cases hlk : lookupSym st.positions txn.symbol with
    | none => exact hst
    | some queue =>
      cases queue with
      | nil => exact hst
      | cons pos rest =>
        dsimp only
        have hqnn := lookupOptSym_nonneg hst hlk
        by_cases hside : pos.type = OptSide.SHORT <;>
          [rw [if_pos hside]; rw [if_neg hside]] <;>
        · intro p hp
          rcases mem_setSym hp with h | h
          · exact hst p h
          · rw [h]
            intro q hqm
            exact hqnn q (List.mem_cons_of_mem _ hqm)
  case OPTION_ASSIGNED =>
    cases hlk : lookupSym st.positions txn.symbol with
    | none => exact hst
    | some queue =>
      cases queue with
      | nil => exact hst
      | cons pos rest =>
        dsimp only
        have hqnn := lookupOptSym_nonneg hst hlk
        intro p hp
        rcases mem_setSym hp with h | h
        · exact hst p h
        · rw [h]
          intro q hqm
          exact hqnn q (List.mem_cons_of_mem _ hqm)
  all_goals exact hst

theorem foldl_preserve_nonneg {σ : Type} (P : σ → Prop) (f : σ → Txn → σ)
    (hf : ∀ s t, 0 ≤ t.quantity → P s → P (f s t)) :
    ∀ (l : List Txn) (s : σ), (∀ t ∈ l, 0 ≤ t.quantity) → P s → P (l.foldl f s) := by
  intro l
  induction l with
  | nil => intro s _ hs; exact hs
  | cons t rest ih =>
    intro s hall hs
    rw [List.foldl_cons]
    exact ih (f s t) (fun x hx => hall x (List.mem_cons_of_mem _ hx))
      (hf s t (hall t (List.mem_cons_self _ _)) hs)

/-- **C8.** For a transaction sequence with non-negative quantities,
after processing any prefix of the date-sorted sequence every stock
lot quantity and every option position quantity held in the per-symbol
maps is non-negative. -/
theorem quantities_never_negative (txns : List Txn) (strategy : TaxStrategy)
    (sp : List (String × List Lot)) (os : List String) (n : Nat)
    (hq : ∀ t ∈ txns, 0 ≤ t.quantity) :
    lotsNonneg (((sortByDate txns).take n).foldl (processStockTxn strategy)
      initStockState).positions ∧
    optPositionsNonneg (((sortByDate txns).take n).foldl
      (processOptionTxn sp os) initOptState).positions := by
  have hmem : ∀ t ∈ (sortByDate txns).take n, 0 ≤ t.quantity := by
    intro t ht
    exact hq t (mem_sortByDate.mp (List.take_subset n _ ht))
  constructor
  · exact foldl_preserve_nonneg (fun st => lotsNonneg st.positions) _
      (fun s t hqt hs => processStockTxn_preserves_nonneg strategy s t hqt hs)
      ((sortByDate txns).take n) initStockState hmem
      (by intro p hp; exact absurd hp (List.not_mem_nil p))
  · exact foldl_preserve_nonneg (fun st => optPositionsNonneg st.positions) _
      (fun s t hqt hs => processOptionTxn_preserves_nonneg sp os s t hqt hs)
      ((sortByDate txns).take n) initOptState hmem
      (by intro p hp; exact absurd hp (List.not_mem_nil p))

theorem quantities_never_negative_witness :
    lotsNonneg (((sortByDate [witnessSellTxn, witnessCovTxn]).take 2).foldl
      (processStockTxn .FIFO) initStockState).positions ∧
    optPositionsNonneg (((sortByDate [witnessSellTxn, witnessCovTxn]).take 2).foldl
      (processOptionTxn [] []) initOptState).positions :=
  quantities_never_negative [witnessSellTxn, witnessCovTxn] .FIFO [] [] 2
    (by decide)

/-! ## C3: the wash-sale flag -/

theorem isReplacementBuy_iff (tr : StockTrade) (t : Txn) :
    isReplacementBuy tr t = true ↔
      (t.symbol = tr.symbol ∧ t.transactionType = .BUY ∧
        t.date ∉ tr.lots.map (·.date) ∧ |t.date - tr.date| ≤ thirtyDaysMs) := by
  unfold isReplacementBuy
  exact decide_eq_true_iff

/-- The wash pass only touches `isWashSale` and `washSaleDate`. -/
theorem applyWashFlag_fields (txns : List Txn) (tr : StockTrade) :
    (applyWashFlag txns tr).symbol = tr.symbol ∧
    (applyWashFlag txns tr).date = tr.date ∧
    (applyWashFlag txns tr).type = tr.type ∧
    (applyWashFlag txns tr).realizedPL = tr.realizedPL ∧
    (applyWashFlag txns tr).lots = tr.lots := by
  unfold applyWashFlag
  by_cases hc : tr.realizedPL < 0 ∧ tr.type = TxnType.SELL
  · rw [if_pos hc]
    cases hfind : findReplacementBuy txns tr <;> simp
  · rw [if_neg hc]
    simp

/-- Every trade record the main loop emits has the wash flag unset. -/
theorem processStockTxn_trades_shape (strategy : TaxStrategy) (st : StockState)
    (txn : Txn) :
    (processStockTxn strategy st txn).trades = st.trades ∨
    ∃ tr : StockTrade, (processStockTxn strategy st txn).trades = st.trades ++ [tr] ∧
      tr.isWashSale = false := by
  cases htype : txn.transactionType
  case BUY =>
    right
    unfold processStockTxn
    rw [htype]
    exact ⟨_, rfl, rfl⟩
  case SELL =>
    by_cases hplist : (lookupSym st.positions txn.symbol).getD [] = []
    · right
      unfold processStockTxn
      rw [htype, if_pos hplist]
      dsimp only
      simp only [apply_ite StockState.trades, ite_self]
      exact ⟨_, rfl, rfl⟩
    · right
      unfold processStockTxn
      rw [htype, if_neg hplist]
      dsimp only
      rw [(accumTermTotals_fields _ _).1]
      simp only [apply_ite StockState.trades, ite_self]
      exact ⟨_, rfl, rfl⟩
  all_goals {
    left
    unfold processStockTxn
    rw [htype] }

theorem foldl_trades_wash_false (strategy : TaxStrategy) :
    ∀ (l : List Txn) (st : StockState),
      (∀ tr ∈ st.trades, tr.isWashSale = false) →
      ∀ tr ∈ (l.foldl (processStockTxn strategy) st).trades,
        tr.isWashSale = false := by
  intro l
  induction l with
  | nil => intro st hst; exact hst
  | cons t rest ih =>
    intro st hst
    rw [List.foldl_cons]
    refine ih (processStockTxn strategy st t) ?_
    rcases processStockTxn_trades_shape strategy st t with h | ⟨tr', h, hw⟩
    · rw [h]; exact hst
    · rw [h]
      intro tr htr
      rcases List.mem_append.mp htr with h' | h'
      · exact hst tr h'
      · rw [List.mem_singleton.mp h']
        exact hw

/-- **C3.** A SELL trade in the matcher's output carries
`isWashSale = true` exactly when its realized P&L is negative and some
BUY transaction of the same symbol, dated within ±30 days of the sell
and not among the acquisition dates of the lots matched to that sell,
exists in the input. -/
theorem wash_sale_iff (txns : List Txn) (strategy : TaxStrategy) (tr : StockTrade)
    (htr : tr ∈ (calculateStockGains txns strategy).trades)
    (hty : tr.type = .SELL) :
    tr.isWashSale = true ↔
      (tr.realizedPL < 0 ∧ ∃ t ∈ txns, t.transactionType = .BUY ∧
        t.symbol = tr.symbol ∧ t.date ∉ tr.lots.map (·.date) ∧
        |t.date - tr.date| ≤ thirtyDaysMs) := by
  unfold calculateStockGains at htr
  dsimp only at htr
  obtain ⟨tr0, htr0, heq⟩ := List.mem_map.mp htr
  have h0 : tr0.isWashSale = false :=
    foldl_trades_wash_false strategy (sortByDate txns) initStockState
      (by intro x hx; exact absurd hx (List.not_mem_nil x)) tr0 htr0
  subst heq
  unfold applyWashFlag
  by_cases hc : tr0.realizedPL < 0 ∧ tr0.type = TxnType.SELL
  · rw [if_pos hc]
    cases hfind : findReplacementBuy txns tr0 with
    | none =>
      simp only [h0, Bool.false_eq_true, false_iff]
      rintro ⟨hpl, t, ht, hbuy, hsym, hdates, hwin⟩
      have : isReplacementBuy tr0 t = true :=
        (isReplacementBuy_iff tr0 t).mpr ⟨hsym, hbuy, hdates, hwin⟩
      exact absurd this (by
        have := List.find?_eq_none.mp hfind t ht
        simpa using this)
    | some t =>
      constructor
      · intro _
        refine ⟨hc.1, t, List.mem_of_find?_eq_some hfind, ?_⟩
        obtain ⟨hsym, hbuy, hdates, hwin⟩ :=
          (isReplacementBuy_iff tr0 t).mp (List.find?_some hfind)
        exact ⟨hbuy, hsym, hdates, hwin⟩
      · intro _
        rfl
  · rw [if_neg hc]
    rw [h0]
    simp only [Bool.false_eq_true, false_iff]
    rintro ⟨hpl, _⟩
    exact hc ⟨hpl, ((applyWashFlag_fields txns tr0).2.2.1).symm.trans hty⟩

theorem wash_sale_iff_witness :
    ((calculateStockGains witnessWashTxns .FIFO).trades.getD 1 default).isWashSale =
        true ↔
      (((calculateStockGains witnessWashTxns .FIFO).trades.getD 1
          default).realizedPL < 0 ∧
        ∃ t ∈ witnessWashTxns, t.transactionType = .BUY ∧
          t.symbol = ((calculateStockGains witnessWashTxns .FIFO).trades.getD 1
            default).symbol ∧
          t.date ∉ (((calculateStockGains witnessWashTxns .FIFO).trades.getD 1
            default).lots.map (·.date)) ∧
          |t.date - ((calculateStockGains witnessWashTxns .FIFO).trades.getD 1
            default).date| ≤ thirtyDaysMs) :=
  wash_sale_iff witnessWashTxns .FIFO _ (by decide) (by decide)

/-! ## C9: recomputation reads an unchanged input -/

/-- **C9.** The caller's transaction array comes back exactly as it
went in — every traversal inside `calculateGainsLosses` works on fresh
arrays (`filter` allocates; the date sort acts on the spread copy
`[...transactions]`) — so feeding the post-call array into a run with
any other strategy is the same as a fresh run on the original input,
and repeating a run on that array reproduces the same report. -/
theorem recompute_reads_unchanged_input (txns : List Txn) (s s' : TaxStrategy) :
    (calculateGainsLossesTracked txns s).2 = txns ∧
    calculateGainsLosses (calculateGainsLossesTracked txns s).2 s' =
      calculateGainsLosses txns s' ∧
    (calculateGainsLossesTracked (calculateGainsLossesTracked txns s).2 s).1 =
      (calculateGainsLossesTracked txns s).1 :=
  ⟨rfl, rfl, rfl⟩
